import Mathlib

/-!
# Order-management storefront: price index, cart with undo/redo, order queue

A shallow embedding of the core of `src/script.js`.  The DOM rendering
functions (`renderCart`, `renderProducts`, `updateStats`, `checkLowStock`,
`updateUndoRedoButtons`, ...) only read the state and are left out; every
state-changing function is embedded.

Conventions of the embedding.
* JavaScript numbers that the program uses (ids, prices, stocks, indices)
  are integers; ids and `Date.now()` values are `Nat`, prices, stocks and
  `historyIndex` are `Int` (so that a negative value is expressible).
* `Date.now()` and `new Date().toLocaleString()` are inputs of the
  operation that calls them.
* `alert(msg)` appends `msg` to the field `alerts` of the state.
* An uncaught `TypeError` / `SyntaxError` (property access on `undefined`,
  `JSON.parse(undefined)`) is the result `none`.
* `JSON.parse (JSON.stringify cart)` on an array of flat records of numbers
  and strings is a deep copy, so a history entry is a `List CartItem`.
-/

namespace Shop

/-! ## Data model -/

/-- Catalog record, as in the literals of `init`. -/
structure Product where
  id : Nat
  name : String
  price : Int
  stock : Int
  category : String
deriving DecidableEq, Repr

/-- A `BSTNode` object or `null`. -/
inductive BSTNode where
  | null : BSTNode
  | node (product : Product) (left right : BSTNode) : BSTNode
deriving DecidableEq, Repr

/-- The class `BST`: a single field `root`. -/
structure BST where
  root : BSTNode
deriving DecidableEq, Repr

/-- The object `{...product, cartId: Date.now()}` built by `addToCart`. -/
structure CartItem where
  id : Nat
  name : String
  price : Int
  stock : Int
  category : String
  cartId : Nat
deriving DecidableEq, Repr

/-- The order object built by `placeOrder`; `completedAt` is absent until
`processOrder` sets it. -/
structure Order where
  id : Nat
  items : List CartItem
  total : Int
  timestamp : String
  status : String
  completedAt : Option String
deriving DecidableEq, Repr

/-- The `Map` from product id to product object. -/
abbrev ProductsMap := Nat → Option Product

/-- The global variables of the script, plus the log of `alert` calls. -/
structure State where
  productsMap : ProductsMap
  cart : List CartItem
  orderQueue : List Order
  completedOrders : List Order
  cartHistory : List (List CartItem)
  historyIndex : Int
  alerts : List String

/-! ## Price index -/

/-- The `while (true)` loop of `BST.insert`, started at `current`: go left
when `product.price < current.product.price`, right otherwise, and attach the
new node at the first `null` link. -/
def BSTNode.insert : BSTNode → Product → BSTNode
  | .null, product => .node product .null .null
  | .node p left right, product =>
    if product.price < p.price then .node p (BSTNode.insert left product) right
    else .node p left (BSTNode.insert right product)

/-- Method `BST.insert(product)`. -/
def BST.insert (t : BST) (product : Product) : BST :=
  { root := t.root.insert product }

/-- The inner closure `search` of `searchByPriceRange`; the returned list is
what the call pushes onto `result`, in push order. -/
def BSTNode.search (minPrice maxPrice : Int) : BSTNode → List Product
  | .null => []
  | .node p left right =>
    (if p.price ≥ minPrice ∧ p.price ≤ maxPrice then [p] else [])
      ++ (if minPrice < p.price then BSTNode.search minPrice maxPrice left else [])
      ++ (if maxPrice > p.price then BSTNode.search minPrice maxPrice right else [])

/-- Method `BST.searchByPriceRange(minPrice, maxPrice)`. -/
def BST.searchByPriceRange (t : BST) (minPrice maxPrice : Int) : List Product :=
  t.root.search minPrice maxPrice

/-- The index rebuild of `renderProducts`: `new BST()` followed by one
`bst.insert(product)` per catalog entry, in enumeration order. -/
def buildIndex (catalog : List Product) : BST :=
  catalog.foldl BST.insert { root := .null }

/-- All products stored in a tree (node, then left subtree, then right). -/
def BSTNode.products : BSTNode → List Product
  | .null => []
  | .node p left right => p :: (left.products ++ right.products)

/-- Search-tree ordering with strict inequalities on both sides: every price
in the left subtree is below the node's price and every price in the right
subtree is above it. -/
def BSTNode.IsStrictBST : BSTNode → Prop
  | .null => True
  | .node p left right =>
    (∀ x ∈ left.products, x.price < p.price) ∧ (∀ x ∈ right.products, p.price < x.price)
      ∧ left.IsStrictBST ∧ right.IsStrictBST

/-- The ten products of `init`. -/
def sampleProducts : List Product :=
  [ { id := 1, name := "Laptop", price := 899, stock := 15, category := "Electronics" },
    { id := 2, name := "Headphones", price := 199, stock := 3, category := "Electronics" },
    { id := 3, name := "Mouse", price := 49, stock := 50, category := "Electronics" },
    { id := 4, name := "Keyboard", price := 79, stock := 30, category := "Electronics" },
    { id := 5, name := "Monitor", price := 299, stock := 2, category := "Electronics" },
    { id := 6, name := "Webcam", price := 89, stock := 20, category := "Electronics" },
    { id := 7, name := "USB Cable", price := 15, stock := 100, category := "Accessories" },
    { id := 8, name := "Phone Case", price := 25, stock := 4, category := "Accessories" },
    { id := 9, name := "Tablet", price := 499, stock := 12, category := "Electronics" },
    { id := 10, name := "Smartwatch", price := 249, stock := 8, category := "Electronics" } ]

/-! ## Catalog store, cart, history, orders -/

/-- Call `productsMap.set(key, product)`. -/
def mapSet (m : ProductsMap) (key : Nat) (product : Product) : ProductsMap :=
  fun k => if k = key then some product else m k

/-- The state after `init`: the catalog entries are stored under their ids,
everything else has its declared initial value. -/
def init (catalog : List Product) : State :=
  { productsMap := catalog.foldl (fun m product => mapSet m product.id product) (fun _ => none)
    cart := []
    orderQueue := []
    completedOrders := []
    cartHistory := []
    historyIndex := -1
    alerts := [] }

/-- Call `xs.slice(0, e)` for an integer `e`: a negative `e` counts from the end. -/
def slice0 {α : Type} (xs : List α) (e : Int) : List α :=
  if e < 0 then xs.take ((xs.length : Int) + e).toNat else xs.take e.toNat

/-- Access `xs[i]` for an integer `i`; `none` stands for `undefined`. -/
def index {α : Type} (xs : List α) (i : Int) : Option α :=
  if i < 0 then none else xs[i.toNat]?

/-- Function `saveCartHistory()`. -/
def saveCartHistory (s : State) : State :=
  { s with
    cartHistory := slice0 s.cartHistory (s.historyIndex + 1) ++ [s.cart]
    historyIndex := s.historyIndex + 1 }

/-- The object literal `{ ...product, cartId: now }`. -/
def lineItem (product : Product) (now : Nat) : CartItem :=
  { id := product.id, name := product.name, price := product.price,
    stock := product.stock, category := product.category, cartId := now }

/-- Function `addToCart(productId)`, with `now` the value of `Date.now()`. -/
def addToCart (s : State) (productId now : Nat) : State :=
  match s.productsMap productId with
  | none => { s with alerts := s.alerts ++ ["Product out of stock!"] }
  | some product =>
    if product.stock = 0 then { s with alerts := s.alerts ++ ["Product out of stock!"] }
    else
      let cartItem : CartItem := lineItem product now
      saveCartHistory
        { s with
          cart := s.cart ++ [cartItem]
          productsMap := mapSet s.productsMap productId { product with stock := product.stock - 1 } }

/-- Function `removeFromCart(cartId)`. -/
def removeFromCart (s : State) (cartId : Nat) : Option State :=
  match s.cart.findIdx? (fun item => item.cartId == cartId) with
  | none => some s
  | some itemIndex =>
    match s.cart[itemIndex]? with
    | none => none
    | some item =>
      match s.productsMap item.id with
      | none => none
      | some product =>
        some (saveCartHistory
          { s with
            cart := s.cart.eraseIdx itemIndex
            productsMap := mapSet s.productsMap item.id { product with stock := product.stock + 1 } })

/-- One iteration of the two `cart.forEach` loops of
`restoreCartFromHistory`: look the item's product up and add `delta` to its
stock. -/
def adjustStock (delta : Int) (m : ProductsMap) (item : CartItem) : Option ProductsMap :=
  match m item.id with
  | none => none
  | some product => some (mapSet m item.id { product with stock := product.stock + delta })

/-- A whole `forEach` loop over `items`. -/
def forEachStock (delta : Int) : ProductsMap → List CartItem → Option ProductsMap
  | m, [] => some m
  | m, item :: rest =>
    match adjustStock delta m item with
    | none => none
    | some m1 => forEachStock delta m1 rest

/-- Function `restoreCartFromHistory()`. -/
def restoreCartFromHistory (s : State) : Option State :=
  match index s.cartHistory s.historyIndex with
  | none => none
  | some previousCart =>
    match forEachStock 1 s.productsMap s.cart with
    | none => none
    | some returned =>
      match forEachStock (-1) returned previousCart with
      | none => none
      | some reserved => some { s with cart := previousCart, productsMap := reserved }

/-- Function `undoCart()`. -/
def undoCart (s : State) : Option State :=
  if s.historyIndex ≤ 0 then some s
  else restoreCartFromHistory { s with historyIndex := s.historyIndex - 1 }

/-- Function `redoCart()`. -/
def redoCart (s : State) : Option State :=
  if s.historyIndex ≥ (s.cartHistory.length : Int) - 1 then some s
  else restoreCartFromHistory { s with historyIndex := s.historyIndex + 1 }

/-- Function `placeOrder()`, with `now` the value of `Date.now()` and `stamp` the
value of `new Date().toLocaleString()`. -/
def placeOrder (s : State) (now : Nat) (stamp : String) : State :=
  if s.cart.length = 0 then { s with alerts := s.alerts ++ ["Cart is empty!"] }
  else
    let order : Order :=
      { id := now
        items := s.cart
        total := s.cart.foldl (fun sum item => sum + item.price) 0
        timestamp := stamp
        status := "pending"
        completedAt := none }
    { s with
      orderQueue := s.orderQueue ++ [order]
      cart := []
      cartHistory := []
      historyIndex := -1
      alerts := s.alerts ++ ["Order placed successfully!"] }

/-- The two assignments `order.status = 'completed'` and
`order.completedAt = stamp` of `processOrder`. -/
def Order.complete (order : Order) (stamp : String) : Order :=
  { order with status := "completed", completedAt := some stamp }

/-- Function `processOrder()`, with `stamp` the value of
`new Date().toLocaleString()`. -/
def processOrder (s : State) (stamp : String) : State :=
  match s.orderQueue with
  | [] => s
  | order :: rest =>
    { s with
      orderQueue := rest
      completedOrders := order.complete stamp :: s.completedOrders }

/-- The user commands wired up by `setupEventListeners` and the inline
`onclick` handlers, with the clock readings each one consumes. -/
inductive Cmd where
  | addToCart (productId now : Nat)
  | removeFromCart (cartId : Nat)
  | undoCart
  | redoCart
  | placeOrder (now : Nat) (stamp : String)
  | processOrder (stamp : String)
deriving DecidableEq, Repr

/-- Run one command. -/
def step (s : State) : Cmd → Option State
  | .addToCart productId now => some (addToCart s productId now)
  | .removeFromCart cartId => removeFromCart s cartId
  | .undoCart => undoCart s
  | .redoCart => redoCart s
  | .placeOrder now stamp => some (placeOrder s now stamp)
  | .processOrder stamp => some (processOrder s stamp)

/-- States reachable from `init catalog` by commands that run to
completion. -/
inductive Reachable (catalog : List Product) : State → Prop
  | start : Reachable catalog (init catalog)
  | next {s t : State} (c : Cmd) : Reachable catalog s → step s c = some t → Reachable catalog t

/-- Number of line items in `items` that are copies of product `k`. -/
def countId (items : List CartItem) (k : Nat) : Nat :=
  items.countP (fun item => item.id == k)

/-- Number of line items of product `k` in a list of orders. -/
def orderedCount (orders : List Order) (k : Nat) : Nat :=
  (orders.map (fun o => countId o.items k)).sum

/-- Every stored product has a stock of at least zero. -/
def StockNonneg (m : ProductsMap) : Prop :=
  ∀ k p, m k = some p → 0 ≤ p.stock

/-- Call `processOrder` once per element of `stamps`. -/
def processOrders (s : State) (stamps : List String) : State :=
  stamps.foldl processOrder s


/-- The map `m` with `f k` added to the stock stored under each key `k`. -/
def shiftStock (m : ProductsMap) (f : Nat → Int) : ProductsMap :=
  fun k => (m k).map (fun p => { p with stock := p.stock + f k })

/-- Consistency of catalog, cart, history entries and orders, relative to
the catalog the run started from: every product is stored under its own id,
every line item of the cart and of the history entries is a copy of a stored
product, and stock plus line items in the cart and in the placed orders is
the initial stock. -/
structure StoreInv (catalog : List Product) (s : State) : Prop where
  keyed : ∀ k p, s.productsMap k = some p → p.id = k
  cartKnown : ∀ item ∈ s.cart, (s.productsMap item.id).isSome = true
  histKnown : ∀ h ∈ s.cartHistory, ∀ item ∈ h, (s.productsMap item.id).isSome = true
  conserved : ∀ k, (s.productsMap k).map (fun p => p.stock + (countId s.cart k : Int)
      + (orderedCount (s.orderQueue ++ s.completedOrders) k : Int))
    = ((init catalog).productsMap k).map (fun p => p.stock)

/-- Stocks are at least zero, and every history entry can be restored
without running out of stock. -/
structure BoundInv (s : State) : Prop where
  nonneg : StockNonneg s.productsMap
  histBound : ∀ h ∈ s.cartHistory, ∀ k p, s.productsMap k = some p →
    (countId h k : Int) ≤ p.stock + countId s.cart k

/-- The state `t` differs from `s` by a change of cart and stocks that keeps
the keys of the map and, for every product, the sum of its stock and its
line items in the cart; the history of `t` is made of entries of `s` and of
the cart of `t`. -/
structure Rebalanced (s t : State) : Prop where
  queue : t.orderQueue = s.orderQueue
  completed : t.completedOrders = s.completedOrders
  hist : ∀ x ∈ t.cartHistory, x ∈ s.cartHistory ∨ x = t.cart
  keyed : ∀ k p, t.productsMap k = some p → p.id = k
  known : ∀ item ∈ t.cart, (t.productsMap item.id).isSome = true
  dom : ∀ k, (t.productsMap k).isSome = (s.productsMap k).isSome
  total : ∀ k p q, s.productsMap k = some p → t.productsMap k = some q →
    q.stock + (countId t.cart k : Int) = p.stock + (countId s.cart k : Int)

/-- Consistency of `cartHistory`, `historyIndex` and `cart`: either nothing
has been recorded since the cart was last emptied by `init` or `placeOrder`,
or the entry at `historyIndex` is the current cart. -/
def HistInv (s : State) : Prop :=
  (s.historyIndex = -1 ∧ s.cartHistory = [] ∧ s.cart = [])
    ∨ (0 ≤ s.historyIndex ∧ index s.cartHistory s.historyIndex = some s.cart)

/-- The state after `init` on the ten products and two `addToCart(5)` calls
at clock readings 1 and 2. -/
def twoMonitors : State :=
  addToCart (addToCart (init sampleProducts) 5 1) 5 2

/-- The state after `init` on the ten products, one `addToCart(5)` and a
`placeOrder`. -/
def monitorOrdered : State :=
  placeOrder (addToCart (init sampleProducts) 5 1) 2 "day 1"

/-- A two-product catalog with prices 100 and 50. -/
def twoPriceCatalog : List Product :=
  [ { id := 1, name := "Desk", price := 100, stock := 3, category := "Furniture" },
    { id := 2, name := "Lamp", price := 50, stock := 3, category := "Furniture" } ]

/-- The state after `init` on `twoPriceCatalog`, `addToCart(1)` and
`addToCart(2)`. -/
def deskAndLamp : State :=
  addToCart (addToCart (init twoPriceCatalog) 1 1) 2 2

/-! ## Price index: lemmas -/

theorem BSTNode.mem_products_insert (t : BSTNode) (p x : Product) :
    x ∈ (t.insert p).products ↔ x = p ∨ x ∈ t.products := by
  induction t with
  | null => simp [BSTNode.insert, BSTNode.products]
  | node q l r ihl ihr =>
    unfold BSTNode.insert
    split
    · simp only [BSTNode.products, List.mem_cons, List.mem_append, ihl]; tauto
    · simp only [BSTNode.products, List.mem_cons, List.mem_append, ihr]; tauto

theorem BSTNode.products_insert_perm (t : BSTNode) (p : Product) :
    (t.insert p).products.Perm (p :: t.products) := by
  induction t with
  | null => simp [BSTNode.insert, BSTNode.products]
  | node q l r ihl ihr =>
    unfold BSTNode.insert
    split
    · simp only [BSTNode.products]
      refine (List.Perm.cons q (List.Perm.append_right _ ihl)).trans ?_
      simpa using List.Perm.swap p q (l.products ++ r.products)
    · simp only [BSTNode.products]
      refine (List.Perm.cons q (List.Perm.append_left _ ihr)).trans ?_
      refine (List.Perm.cons q (List.perm_middle)).trans ?_
      exact List.Perm.swap p q (l.products ++ r.products)

theorem BSTNode.isStrictBST_insert (t : BSTNode) (p : Product) (ht : t.IsStrictBST)
    (hp : ∀ x ∈ t.products, x.price ≠ p.price) : (t.insert p).IsStrictBST := by
  induction t with
  | null => simp [BSTNode.insert, BSTNode.IsStrictBST, BSTNode.products]
  | node q l r ihl ihr =>
    obtain ⟨hl, hr, sl, sr⟩ := ht
    have hq : q.price ≠ p.price := hp q (by simp [BSTNode.products])
    have hpl : ∀ x ∈ l.products, x.price ≠ p.price := fun x hx =>
      hp x (by simp [BSTNode.products, hx])
    have hpr : ∀ x ∈ r.products, x.price ≠ p.price := fun x hx =>
      hp x (by simp [BSTNode.products, hx])
    unfold BSTNode.insert
    split
    · rename_i hlt
      refine ⟨?_, hr, ihl sl hpl, sr⟩
      intro x hx
      rcases (BSTNode.mem_products_insert l p x).1 hx with rfl | hx
      · exact hlt
      · exact hl x hx
    · rename_i hge
      refine ⟨hl, ?_, sl, ihr sr hpr⟩
      intro x hx
      rcases (BSTNode.mem_products_insert r p x).1 hx with rfl | hx
      · exact lt_of_le_of_ne (not_lt.1 hge) hq
      · exact hr x hx

theorem BSTNode.search_eq_filter (minPrice maxPrice : Int) (t : BSTNode) (ht : t.IsStrictBST) :
    t.search minPrice maxPrice
      = t.products.filter (fun p => decide (minPrice ≤ p.price ∧ p.price ≤ maxPrice)) := by
  induction t with
  | null => simp [BSTNode.search, BSTNode.products]
  | node q l r ihl ihr =>
    obtain ⟨hl, hr, sl, sr⟩ := ht
    have el : (if minPrice < q.price then l.search minPrice maxPrice else [])
        = l.products.filter (fun p => decide (minPrice ≤ p.price ∧ p.price ≤ maxPrice)) := by
      split
      · exact ihl sl
      · rename_i h
        symm
        rw [List.filter_eq_nil_iff]
        intro x hx
        have := hl x hx
        simp only [decide_eq_true_eq, not_and, not_le]
        intro h1
        omega
    have er : (if maxPrice > q.price then r.search minPrice maxPrice else [])
        = r.products.filter (fun p => decide (minPrice ≤ p.price ∧ p.price ≤ maxPrice)) := by
      split
      · exact ihr sr
      · rename_i h
        symm
        rw [List.filter_eq_nil_iff]
        intro x hx
        have := hr x hx
        simp only [decide_eq_true_eq, not_and, not_le]
        intro _
        omega
    have eq : (if q.price ≥ minPrice ∧ q.price ≤ maxPrice then [q] else [])
        = [q].filter (fun p => decide (minPrice ≤ p.price ∧ p.price ≤ maxPrice)) := by
      by_cases h : minPrice ≤ q.price ∧ q.price ≤ maxPrice
      · simp [h]
      · simp [h]
    simp only [BSTNode.search, BSTNode.products, el, er, eq]
    rw [show q :: (l.products ++ r.products) = [q] ++ l.products ++ r.products by simp]
    simp only [List.filter_append]

theorem buildFrom_products_perm (catalog : List Product) (t : BST) :
    (catalog.foldl BST.insert t).root.products.Perm (catalog ++ t.root.products) := by
  induction catalog generalizing t with
  | nil => simp
  | cons p rest ih =>
    simp only [List.foldl_cons]
    refine (ih (t.insert p)).trans ?_
    have h1 : (t.insert p).root.products.Perm (p :: t.root.products) :=
      BSTNode.products_insert_perm t.root p
    refine (List.Perm.append_left rest h1).trans ?_
    simp

theorem buildFrom_isStrictBST (catalog : List Product) (t : BST) (ht : t.root.IsStrictBST)
    (hc : catalog.Pairwise (fun a b => a.price ≠ b.price))
    (hd : ∀ x ∈ t.root.products, ∀ y ∈ catalog, x.price ≠ y.price) :
    (catalog.foldl BST.insert t).root.IsStrictBST := by
  induction catalog generalizing t with
  | nil => simpa using ht
  | cons p rest ih =>
    simp only [List.foldl_cons]
    rw [List.pairwise_cons] at hc
    apply ih
    · exact BSTNode.isStrictBST_insert t.root p ht (fun x hx => hd x hx p (by simp))
    · exact hc.2
    · intro x hx y hy
      rcases (BSTNode.mem_products_insert t.root p x).1 hx with rfl | hx
      · exact hc.1 y hy
      · exact hd x hx y (by simp [hy])


/-! ## Lists, `slice`, indexing -/

theorem slice0_of_nonneg {α : Type} (xs : List α) (e : Int) (h : 0 ≤ e) :
    slice0 xs e = xs.take e.toNat := by
  unfold slice0
  rw [if_neg (not_lt.2 h)]

theorem mem_of_mem_slice0 {α : Type} {xs : List α} {e : Int} {x : α} (h : x ∈ slice0 xs e) :
    x ∈ xs := by
  unfold slice0 at h
  split at h <;> exact List.mem_of_mem_take h

theorem index_eq_some_iff {α : Type} (xs : List α) (i : Int) (c : α) :
    index xs i = some c ↔ 0 ≤ i ∧ xs[i.toNat]? = some c := by
  unfold index
  split
  · constructor
    · intro h; cases h
    · rintro ⟨h, _⟩; omega
  · constructor
    · intro h; exact ⟨by omega, h⟩
    · rintro ⟨_, h⟩; exact h

theorem index_lt_length {α : Type} {xs : List α} {i : Int} {c : α} (h : index xs i = some c) :
    0 ≤ i ∧ i < xs.length := by
  obtain ⟨h0, h1⟩ := (index_eq_some_iff xs i c).1 h
  have := (List.getElem?_eq_some_iff.1 h1).1
  exact ⟨h0, by omega⟩

theorem index_isSome_of_lt {α : Type} (xs : List α) (i : Int) (h0 : 0 ≤ i) (h1 : i < xs.length) :
    ∃ c, index xs i = some c := by
  have hlt : i.toNat < xs.length := by omega
  exact ⟨xs[i.toNat], (index_eq_some_iff xs i _).2 ⟨h0, List.getElem?_eq_getElem hlt⟩⟩

theorem mem_of_index {α : Type} {xs : List α} {i : Int} {c : α} (h : index xs i = some c) :
    c ∈ xs := by
  obtain ⟨_, h1⟩ := (index_eq_some_iff xs i c).1 h
  obtain ⟨hlt, rfl⟩ := List.getElem?_eq_some_iff.1 h1
  exact List.getElem_mem hlt

theorem index_saved {α : Type} (xs : List α) (i : Int) (c : α) (h1 : -1 ≤ i)
    (h2 : i < xs.length) : index (slice0 xs (i + 1) ++ [c]) (i + 1) = some c := by
  rw [slice0_of_nonneg xs (i + 1) (by omega), index_eq_some_iff]
  refine ⟨by omega, ?_⟩
  have hlen : (xs.take (i + 1).toNat).length = (i + 1).toNat := by
    rw [List.length_take]; omega
  rw [List.getElem?_append_right (by omega), hlen]
  simp

theorem length_saved {α : Type} (xs : List α) (i : Int) (c : α) (h1 : -1 ≤ i)
    (h2 : i < xs.length) : ((slice0 xs (i + 1) ++ [c]).length : Int) = i + 2 := by
  rw [slice0_of_nonneg xs (i + 1) (by omega)]
  simp only [List.length_append, List.length_take, List.length_singleton]
  omega

theorem findIdx?_split {α : Type} (p : α → Bool) (before : List α) (x : α) (after : List α)
    (hb : ∀ y ∈ before, p y = false) (hx : p x = true) :
    (before ++ x :: after).findIdx? p = some before.length := by
  rw [List.findIdx?_append, List.findIdx?_eq_none_iff.2 hb]
  simp [hx]

theorem exists_first_split {α : Type} (p : α → Bool) (xs : List α) (h : ∃ x ∈ xs, p x = true) :
    ∃ before x after, xs = before ++ x :: after ∧ (∀ y ∈ before, p y = false) ∧ p x = true := by
  induction xs with
  | nil => simp at h
  | cons a rest ih =>
    by_cases ha : p a = true
    · exact ⟨[], a, rest, rfl, by simp, ha⟩
    · have h2 : ∃ x ∈ rest, p x = true := by
        obtain ⟨x, hx, hpx⟩ := h
        rcases List.mem_cons.1 hx with rfl | hx
        · exact absurd hpx ha
        · exact ⟨x, hx, hpx⟩
      obtain ⟨before, x, after, e, hb, hx⟩ := ih h2
      refine ⟨a :: before, x, after, by simp [e], ?_, hx⟩
      intro y hy
      rcases List.mem_cons.1 hy with rfl | hy
      · simpa using ha
      · exact hb y hy

theorem eraseIdx_split {α : Type} (before : List α) (x : α) (after : List α) :
    (before ++ x :: after).eraseIdx before.length = before ++ after := by
  rw [List.eraseIdx_append_of_length_le (le_refl _)]
  simp

theorem getElem?_split {α : Type} (before : List α) (x : α) (after : List α) :
    (before ++ x :: after)[before.length]? = some x := by
  rw [List.getElem?_append_right (le_refl _)]
  simp

/-! ## Counting line items -/

theorem countId_append (xs ys : List CartItem) (k : Nat) :
    countId (xs ++ ys) k = countId xs k + countId ys k := by
  unfold countId
  exact List.countP_append _ _ _

theorem countId_cons (x : CartItem) (xs : List CartItem) (k : Nat) :
    countId (x :: xs) k = countId xs k + (if x.id = k then 1 else 0) := by
  unfold countId
  rw [List.countP_cons]
  simp

theorem countId_nil (k : Nat) : countId [] k = 0 := rfl

theorem orderedCount_append (xs ys : List Order) (k : Nat) :
    orderedCount (xs ++ ys) k = orderedCount xs k + orderedCount ys k := by
  unfold orderedCount
  simp

theorem orderedCount_cons (o : Order) (xs : List Order) (k : Nat) :
    orderedCount (o :: xs) k = countId o.items k + orderedCount xs k := by
  unfold orderedCount
  simp

theorem orderedCount_nil (k : Nat) : orderedCount [] k = 0 := rfl


/-! ## The stock loops of `restoreCartFromHistory` -/

theorem mapSet_same (m : ProductsMap) (key : Nat) (p : Product) : mapSet m key p key = some p := by
  simp [mapSet]

theorem mapSet_other (m : ProductsMap) (key : Nat) (p : Product) (k : Nat) (h : k ≠ key) :
    mapSet m key p k = m k := by
  simp [mapSet, h]

theorem mapSet_isSome (m : ProductsMap) (key : Nat) (p q : Product) (h : m key = some q)
    (k : Nat) : (mapSet m key p k).isSome = (m k).isSome := by
  by_cases hk : k = key
  · subst hk
    simp [mapSet, h]
  · simp [mapSet, hk]

theorem shiftStock_isSome (m : ProductsMap) (f : Nat → Int) (k : Nat) :
    (shiftStock m f k).isSome = (m k).isSome := by
  simp [shiftStock]

theorem shiftStock_some (m : ProductsMap) (f : Nat → Int) (k : Nat) (p : Product)
    (h : m k = some p) : shiftStock m f k = some { p with stock := p.stock + f k } := by
  simp [shiftStock, h]

theorem shiftStock_eq_some (m : ProductsMap) (f : Nat → Int) (k : Nat) (q : Product)
    (h : shiftStock m f k = some q) :
    ∃ p, m k = some p ∧ q = { p with stock := p.stock + f k } := by
  unfold shiftStock at h
  cases hm : m k with
  | none => rw [hm] at h; cases h
  | some p =>
    rw [hm] at h
    exact ⟨p, rfl, (Option.some.inj h).symm⟩

theorem forEachStock_eq (delta : Int) (items : List CartItem) (m : ProductsMap)
    (hk : ∀ item ∈ items, (m item.id).isSome = true) :
    forEachStock delta m items = some (shiftStock m (fun k => delta * countId items k)) := by
  induction items generalizing m with
  | nil =>
    simp only [forEachStock]
    congr 1
    funext k
    cases h : m k <;> simp [shiftStock, h, countId_nil]
  | cons item rest ih =>
    have h1 := hk item (by simp)
    obtain ⟨p, hp⟩ := Option.isSome_iff_exists.1 h1
    simp only [forEachStock, adjustStock, hp]
    rw [ih]
    · congr 1
      funext k
      by_cases hkk : k = item.id
      · subst hkk
        simp only [shiftStock, mapSet_same, hp, Option.map_some', countId_cons, if_true]
        congr 2
        push_cast
        ring
      · have hne : ¬ item.id = k := fun h => hkk h.symm
        simp only [shiftStock, mapSet_other _ _ _ _ hkk, countId_cons, if_neg hne, Nat.add_zero]
    · intro x hx
      rw [mapSet_isSome _ _ _ _ hp]
      exact hk x (by simp [hx])

theorem forEachStock_none (delta : Int) (items : List CartItem) (m : ProductsMap)
    (item : CartItem) (hi : item ∈ items) (hm : m item.id = none) :
    forEachStock delta m items = none := by
  induction items generalizing m with
  | nil => simp at hi
  | cons x rest ih =>
    simp only [forEachStock, adjustStock]
    cases hx : m x.id with
    | none => rfl
    | some p =>
      simp only
      rcases List.mem_cons.1 hi with rfl | hi
      · rw [hm] at hx; cases hx
      · apply ih _ hi
        have hne : item.id ≠ x.id := by
          intro h
          rw [h, hx] at hm
          cases hm
        rw [mapSet_other _ _ _ _ hne]
        exact hm

/-- The map left by `restoreCartFromHistory` when it discards `old` and
installs `new`. -/
theorem restoreCartFromHistory_eq (s : State) (previousCart : List CartItem)
    (hidx : index s.cartHistory s.historyIndex = some previousCart)
    (hc : ∀ item ∈ s.cart, (s.productsMap item.id).isSome = true)
    (hp : ∀ item ∈ previousCart, (s.productsMap item.id).isSome = true) :
    restoreCartFromHistory s = some
      { s with
        cart := previousCart
        productsMap := shiftStock (shiftStock s.productsMap (fun k => 1 * countId s.cart k))
          (fun k => -1 * countId previousCart k) } := by
  unfold restoreCartFromHistory
  rw [hidx]
  simp only
  rw [forEachStock_eq 1 s.cart s.productsMap hc]
  simp only
  rw [forEachStock_eq (-1) previousCart _ (fun x hx => by rw [shiftStock_isSome]; exact hp x hx)]


/-! ## Preservation of the invariants -/

theorem isSome_eq_of_eq_some {m n : ProductsMap} (hdom : ∀ k, (n k).isSome = (m k).isSome)
    {k : Nat} {q : Product} (h : n k = some q) : ∃ p, m k = some p := by
  have : (m k).isSome = true := by rw [← hdom k, h]; rfl
  exact Option.isSome_iff_exists.1 this

theorem storeInv_of_rebalanced {catalog : List Product} {s t : State} (h : StoreInv catalog s)
    (r : Rebalanced s t) : StoreInv catalog t := by
  refine ⟨r.keyed, r.known, ?_, ?_⟩
  · intro x hx item hitem
    rcases r.hist x hx with hx | rfl
    · rw [r.dom]; exact h.histKnown x hx item hitem
    · exact r.known item hitem
  · intro k
    rw [r.queue, r.completed, ← h.conserved k]
    cases hs : s.productsMap k with
    | none =>
      have : (t.productsMap k).isSome = false := by rw [r.dom, hs]; rfl
      have hn : t.productsMap k = none := by
        cases ht : t.productsMap k with
        | none => rfl
        | some q => rw [ht] at this; cases this
      rw [hn]
      rfl
    | some p =>
      have : (t.productsMap k).isSome = true := by rw [r.dom, hs]; rfl
      obtain ⟨q, hq2⟩ := Option.isSome_iff_exists.1 this
      rw [hq2]
      have ht := r.total k p q hs hq2
      simp only [Option.map_some', Option.some.injEq]
      omega

theorem boundInv_of_rebalanced {s t : State} (h : BoundInv s) (r : Rebalanced s t)
    (hn : StockNonneg t.productsMap) : BoundInv t := by
  refine ⟨hn, ?_⟩
  intro x hx k q hq2
  obtain ⟨p, hp⟩ := isSome_eq_of_eq_some r.dom hq2
  have ht := r.total k p q hp hq2
  rcases r.hist x hx with hx | rfl
  · have := h.histBound x hx k p hp
    omega
  · have := hn k q hq2
    omega

theorem histInv_bounds {s : State} (h : HistInv s) :
    -1 ≤ s.historyIndex ∧ s.historyIndex < s.cartHistory.length := by
  rcases h with ⟨h1, h2, _⟩ | ⟨h1, h2⟩
  · rw [h1, h2]; simp
  · have := index_lt_length h2
    omega

theorem histInv_save {s : State} (h : HistInv s) (cart : List CartItem) (m : ProductsMap) :
    HistInv (saveCartHistory { s with cart := cart, productsMap := m }) := by
  obtain ⟨h1, h2⟩ := histInv_bounds h
  right
  refine ⟨by simp only [saveCartHistory]; omega, ?_⟩
  exact index_saved s.cartHistory s.historyIndex cart h1 h2

theorem init_keyed (catalog : List Product) (m : ProductsMap)
    (hm : ∀ k p, m k = some p → p.id = k) :
    ∀ k p, catalog.foldl (fun m product => mapSet m product.id product) m k = some p → p.id = k := by
  induction catalog generalizing m with
  | nil => simpa using hm
  | cons a rest ih =>
    simp only [List.foldl_cons]
    apply ih
    intro k p hp
    by_cases hk : k = a.id
    · subst hk
      rw [mapSet_same] at hp
      cases hp
      rfl
    · rw [mapSet_other _ _ _ _ hk] at hp
      exact hm k p hp

theorem init_mem (catalog : List Product) (m : ProductsMap) (k : Nat) (p : Product)
    (h : catalog.foldl (fun m product => mapSet m product.id product) m k = some p) :
    p ∈ catalog ∨ m k = some p := by
  induction catalog generalizing m with
  | nil => right; simpa using h
  | cons a rest ih =>
    simp only [List.foldl_cons] at h
    rcases ih _ h with h1 | h1
    · left; simp [h1]
    · by_cases hk : k = a.id
      · subst hk
        rw [mapSet_same] at h1
        cases h1
        left; simp
      · rw [mapSet_other _ _ _ _ hk] at h1
        right; exact h1

theorem init_storeInv (catalog : List Product) : StoreInv catalog (init catalog) := by
  refine ⟨?_, ?_, ?_, ?_⟩
  · exact init_keyed catalog _ (fun k p h => by cases h)
  · intro item hitem; simp [init] at hitem
  · intro x hx; simp [init] at hx
  · intro k
    cases h : (init catalog).productsMap k <;>
      simp [init, countId_nil, orderedCount_nil]

theorem init_boundInv (catalog : List Product) (hc : ∀ p ∈ catalog, 0 ≤ p.stock) :
    BoundInv (init catalog) := by
  refine ⟨?_, ?_⟩
  · intro k p hp
    rcases init_mem catalog _ k p hp with h | h
    · exact hc p h
    · cases h
  · intro x hx; simp [init] at hx

theorem init_histInv (catalog : List Product) : HistInv (init catalog) :=
  Or.inl ⟨rfl, rfl, rfl⟩

/-! ## What each operation computes -/

theorem addToCart_missing (s : State) (productId now : Nat) (h : s.productsMap productId = none) :
    addToCart s productId now = { s with alerts := s.alerts ++ ["Product out of stock!"] } := by
  unfold addToCart
  rw [h]

theorem addToCart_empty (s : State) (productId now : Nat) (p : Product)
    (h : s.productsMap productId = some p) (h0 : p.stock = 0) :
    addToCart s productId now = { s with alerts := s.alerts ++ ["Product out of stock!"] } := by
  unfold addToCart
  rw [h]
  simp only [h0, if_true]

theorem addToCart_ok (s : State) (productId now : Nat) (p : Product)
    (h : s.productsMap productId = some p) (h0 : p.stock ≠ 0) :
    addToCart s productId now = saveCartHistory
      { s with
        cart := s.cart ++ [lineItem p now]
        productsMap := mapSet s.productsMap productId { p with stock := p.stock - 1 } } := by
  unfold addToCart
  rw [h]
  simp only [h0, if_false]

theorem removeFromCart_absent (s : State) (cartId : Nat)
    (h : ∀ item ∈ s.cart, item.cartId ≠ cartId) : removeFromCart s cartId = some s := by
  unfold removeFromCart
  have : s.cart.findIdx? (fun item => item.cartId == cartId) = none := by
    rw [List.findIdx?_eq_none_iff]
    intro x hx
    simpa using h x hx
  rw [this]

theorem removeFromCart_present (s : State) (cartId : Nat) (before : List CartItem)
    (item : CartItem) (after : List CartItem) (p : Product)
    (hcart : s.cart = before ++ item :: after)
    (hb : ∀ x ∈ before, x.cartId ≠ cartId) (hi : item.cartId = cartId)
    (hp : s.productsMap item.id = some p) :
    removeFromCart s cartId = some (saveCartHistory
      { s with
        cart := before ++ after
        productsMap := mapSet s.productsMap item.id { p with stock := p.stock + 1 } }) := by
  unfold removeFromCart
  have h1 : s.cart.findIdx? (fun item => item.cartId == cartId) = some before.length := by
    rw [hcart]
    apply findIdx?_split
    · intro y hy; simpa using hb y hy
    · simpa using hi
  rw [h1]
  simp only
  rw [hcart, getElem?_split]
  simp only
  rw [hp, eraseIdx_split]

theorem removeFromCart_missing (s : State) (cartId : Nat) (before : List CartItem)
    (item : CartItem) (after : List CartItem)
    (hcart : s.cart = before ++ item :: after)
    (hb : ∀ x ∈ before, x.cartId ≠ cartId) (hi : item.cartId = cartId)
    (hp : s.productsMap item.id = none) : removeFromCart s cartId = none := by
  unfold removeFromCart
  have h1 : s.cart.findIdx? (fun item => item.cartId == cartId) = some before.length := by
    rw [hcart]
    apply findIdx?_split
    · intro y hy; simpa using hb y hy
    · simpa using hi
  rw [h1]
  simp only
  rw [hcart, getElem?_split]
  simp only
  rw [hp]

theorem placeOrder_empty (s : State) (now : Nat) (stamp : String) (h : s.cart = []) :
    placeOrder s now stamp = { s with alerts := s.alerts ++ ["Cart is empty!"] } := by
  unfold placeOrder
  simp [h]

theorem placeOrder_ok (s : State) (now : Nat) (stamp : String) (h : s.cart ≠ []) :
    placeOrder s now stamp =
      { s with
        orderQueue := s.orderQueue ++ [
          { id := now
            items := s.cart
            total := s.cart.foldl (fun sum item => sum + item.price) 0
            timestamp := stamp
            status := "pending"
            completedAt := none }]
        cart := []
        cartHistory := []
        historyIndex := -1
        alerts := s.alerts ++ ["Order placed successfully!"] } := by
  unfold placeOrder
  have : ¬ s.cart.length = 0 := by
    intro h0
    exact h (List.length_eq_zero.1 h0)
  simp only [this, if_false]


/-! ## Every operation preserves the invariants -/

theorem storeInv_alerts {catalog : List Product} {s : State} (h : StoreInv catalog s)
    (a : List String) : StoreInv catalog { s with alerts := a } :=
  ⟨h.keyed, h.cartKnown, h.histKnown, h.conserved⟩

theorem boundInv_alerts {s : State} (h : BoundInv s) (a : List String) :
    BoundInv { s with alerts := a } :=
  ⟨h.nonneg, h.histBound⟩

theorem lineItem_id (p : Product) (now : Nat) : (lineItem p now).id = p.id := rfl

theorem addToCart_rebalanced {catalog : List Product} {s : State} (h : StoreInv catalog s)
    (productId now : Nat) (p : Product) (hm : s.productsMap productId = some p) :
    Rebalanced s (saveCartHistory
      { s with
        cart := s.cart ++ [lineItem p now]
        productsMap := mapSet s.productsMap productId { p with stock := p.stock - 1 } }) := by
  have hid : p.id = productId := h.keyed productId p hm
  have hdom : ∀ k, (mapSet s.productsMap productId { p with stock := p.stock - 1 } k).isSome
      = (s.productsMap k).isSome := mapSet_isSome _ _ _ _ hm
  refine ⟨rfl, rfl, ?_, ?_, ?_, hdom, ?_⟩
  · intro x hx
    simp only [saveCartHistory, List.mem_append, List.mem_singleton] at hx
    rcases hx with hx | hx
    · exact Or.inl (mem_of_mem_slice0 hx)
    · exact Or.inr hx
  · intro k q hq
    simp only [saveCartHistory] at hq
    by_cases hk : k = productId
    · subst hk
      rw [mapSet_same] at hq
      cases hq
      exact hid
    · rw [mapSet_other _ _ _ _ hk] at hq
      exact h.keyed k q hq
  · intro item hitem
    simp only [saveCartHistory, List.mem_append, List.mem_singleton] at hitem ⊢
    rw [hdom]
    rcases hitem with hitem | rfl
    · exact h.cartKnown item hitem
    · rw [lineItem_id, hid, hm]; rfl
  · intro k p1 q hp1 hq
    simp only [saveCartHistory] at hq ⊢
    rw [countId_append, countId_cons, countId_nil, lineItem_id, hid]
    by_cases hk : k = productId
    · subst hk
      rw [mapSet_same] at hq
      rw [hm] at hp1
      cases hq
      cases hp1
      simp only [if_true]
      push_cast
      omega
    · rw [mapSet_other _ _ _ _ hk] at hq
      rw [hp1] at hq
      cases hq
      have hne : ¬ productId = k := fun e => hk e.symm
      simp only [if_neg hne]
      push_cast
      omega

theorem addToCart_storeInv {catalog : List Product} {s : State} (h : StoreInv catalog s)
    (productId now : Nat) : StoreInv catalog (addToCart s productId now) := by
  cases hm : s.productsMap productId with
  | none => rw [addToCart_missing s productId now hm]; exact storeInv_alerts h _
  | some p =>
    by_cases h0 : p.stock = 0
    · rw [addToCart_empty s productId now p hm h0]; exact storeInv_alerts h _
    · rw [addToCart_ok s productId now p hm h0]
      exact storeInv_of_rebalanced h (addToCart_rebalanced h productId now p hm)

theorem addToCart_boundInv {catalog : List Product} {s : State} (h : StoreInv catalog s)
    (hb : BoundInv s) (productId now : Nat) : BoundInv (addToCart s productId now) := by
  cases hm : s.productsMap productId with
  | none => rw [addToCart_missing s productId now hm]; exact boundInv_alerts hb _
  | some p =>
    by_cases h0 : p.stock = 0
    · rw [addToCart_empty s productId now p hm h0]; exact boundInv_alerts hb _
    · rw [addToCart_ok s productId now p hm h0]
      apply boundInv_of_rebalanced hb (addToCart_rebalanced h productId now p hm)
      intro k q hq
      simp only [saveCartHistory] at hq
      by_cases hk : k = productId
      · subst hk
        rw [mapSet_same] at hq
        cases hq
        have := hb.nonneg k p hm
        simp only
        omega
      · rw [mapSet_other _ _ _ _ hk] at hq
        exact hb.nonneg k q hq

theorem addToCart_histInv {s : State} (h : HistInv s) (productId now : Nat) :
    HistInv (addToCart s productId now) := by
  cases hm : s.productsMap productId with
  | none => rw [addToCart_missing s productId now hm]; exact h
  | some p =>
    by_cases h0 : p.stock = 0
    · rw [addToCart_empty s productId now p hm h0]; exact h
    · rw [addToCart_ok s productId now p hm h0]
      exact histInv_save h _ _

/-- In a consistent state `removeFromCart` returns, and its result is either
the state itself or the removal of the first match. -/
theorem removeFromCart_cases {catalog : List Product} {s : State} (h : StoreInv catalog s)
    (cartId : Nat) :
    ((∀ item ∈ s.cart, item.cartId ≠ cartId) ∧ removeFromCart s cartId = some s)
    ∨ ∃ before item after p, s.cart = before ++ item :: after
        ∧ (∀ x ∈ before, x.cartId ≠ cartId) ∧ item.cartId = cartId
        ∧ s.productsMap item.id = some p
        ∧ removeFromCart s cartId = some (saveCartHistory
            { s with
              cart := before ++ after
              productsMap := mapSet s.productsMap item.id { p with stock := p.stock + 1 } }) := by
  by_cases hex : ∃ x ∈ s.cart, (fun item : CartItem => item.cartId == cartId) x = true
  · right
    obtain ⟨before, item, after, hcart, hb, hi⟩ := exists_first_split _ s.cart hex
    have hb2 : ∀ x ∈ before, x.cartId ≠ cartId := fun x hx => by simpa using hb x hx
    have hi2 : item.cartId = cartId := by simpa using hi
    have hknown := h.cartKnown item (by rw [hcart]; simp)
    obtain ⟨p, hp⟩ := Option.isSome_iff_exists.1 hknown
    exact ⟨before, item, after, p, hcart, hb2, hi2, hp,
      removeFromCart_present s cartId before item after p hcart hb2 hi2 hp⟩
  · left
    have hall : ∀ item ∈ s.cart, item.cartId ≠ cartId := by
      intro item hitem hc
      exact hex ⟨item, hitem, by simpa using hc⟩
    exact ⟨hall, removeFromCart_absent s cartId hall⟩

theorem removeFromCart_rebalanced {catalog : List Product} {s : State} (h : StoreInv catalog s)
    (before : List CartItem) (item : CartItem) (after : List CartItem) (p : Product)
    (hcart : s.cart = before ++ item :: after) (hp : s.productsMap item.id = some p) :
    Rebalanced s (saveCartHistory
      { s with
        cart := before ++ after
        productsMap := mapSet s.productsMap item.id { p with stock := p.stock + 1 } }) := by
  have hdom : ∀ k, (mapSet s.productsMap item.id { p with stock := p.stock + 1 } k).isSome
      = (s.productsMap k).isSome := mapSet_isSome _ _ _ _ hp
  refine ⟨rfl, rfl, ?_, ?_, ?_, hdom, ?_⟩
  · intro x hx
    simp only [saveCartHistory, List.mem_append, List.mem_singleton] at hx
    rcases hx with hx | hx
    · exact Or.inl (mem_of_mem_slice0 hx)
    · exact Or.inr hx
  · intro k q hq
    simp only [saveCartHistory] at hq
    by_cases hk : k = item.id
    · subst hk
      rw [mapSet_same] at hq
      cases hq
      exact h.keyed _ p hp
    · rw [mapSet_other _ _ _ _ hk] at hq
      exact h.keyed k q hq
  · intro x hx
    simp only [saveCartHistory, List.mem_append] at hx ⊢
    rw [hdom]
    apply h.cartKnown x
    rw [hcart]
    rcases hx with hx | hx
    · simp [hx]
    · simp [hx]
  · intro k p1 q hp1 hq
    simp only [saveCartHistory] at hq ⊢
    rw [hcart, countId_append, countId_append, countId_cons]
    by_cases hk : k = item.id
    · subst hk
      rw [mapSet_same] at hq
      rw [hp] at hp1
      cases hq
      cases hp1
      simp only [if_true]
      push_cast
      omega
    · rw [mapSet_other _ _ _ _ hk] at hq
      rw [hp1] at hq
      cases hq
      have hne : ¬ item.id = k := fun e => hk e.symm
      simp only [if_neg hne]
      push_cast
      omega

theorem removeFromCart_storeInv {catalog : List Product} {s t : State} (h : StoreInv catalog s)
    (cartId : Nat) (ht : removeFromCart s cartId = some t) : StoreInv catalog t := by
  rcases removeFromCart_cases h cartId with ⟨_, he⟩ | ⟨before, item, after, p, hcart, _, _, hp, he⟩
  · rw [he] at ht; cases ht; exact h
  · rw [he] at ht
    cases ht
    exact storeInv_of_rebalanced h (removeFromCart_rebalanced h before item after p hcart hp)

theorem removeFromCart_boundInv {catalog : List Product} {s t : State} (h : StoreInv catalog s)
    (hb : BoundInv s) (cartId : Nat) (ht : removeFromCart s cartId = some t) : BoundInv t := by
  rcases removeFromCart_cases h cartId with ⟨_, he⟩ | ⟨before, item, after, p, hcart, _, _, hp, he⟩
  · rw [he] at ht; cases ht; exact hb
  · rw [he] at ht
    cases ht
    apply boundInv_of_rebalanced hb (removeFromCart_rebalanced h before item after p hcart hp)
    intro k q hq
    simp only [saveCartHistory] at hq
    by_cases hk : k = item.id
    · subst hk
      rw [mapSet_same] at hq
      cases hq
      have := hb.nonneg _ p hp
      simp only
      omega
    · rw [mapSet_other _ _ _ _ hk] at hq
      exact hb.nonneg k q hq

theorem removeFromCart_histInv {catalog : List Product} {s t : State} (h : StoreInv catalog s)
    (hh : HistInv s) (cartId : Nat) (ht : removeFromCart s cartId = some t) : HistInv t := by
  rcases removeFromCart_cases h cartId with ⟨_, he⟩ | ⟨before, item, after, p, _, _, _, _, he⟩
  · rw [he] at ht; cases ht; exact hh
  · rw [he] at ht
    cases ht
    exact histInv_save hh _ _

/-- The state `restoreCartFromHistory` is entered with by `undoCart` and
`redoCart`: the state `s` with `historyIndex` moved to `j`. -/
theorem restore_at {catalog : List Product} {s : State} (h : StoreInv catalog s) (j : Int)
    (previousCart : List CartItem) (hj : index s.cartHistory j = some previousCart) :
    restoreCartFromHistory { s with historyIndex := j } = some
      { s with
        historyIndex := j
        cart := previousCart
        productsMap := shiftStock (shiftStock s.productsMap (fun k => 1 * countId s.cart k))
          (fun k => -1 * countId previousCart k) } :=
  restoreCartFromHistory_eq { s with historyIndex := j } previousCart hj h.cartKnown
    (h.histKnown previousCart (mem_of_index hj))

theorem restore_value (s : State) (previousCart : List CartItem) (k : Nat) (p : Product)
    (hp : s.productsMap k = some p) :
    shiftStock (shiftStock s.productsMap (fun k => 1 * countId s.cart k))
        (fun k => -1 * countId previousCart k) k
      = some { p with stock := p.stock + 1 * countId s.cart k + -1 * countId previousCart k } := by
  rw [shiftStock_some _ _ k _ (shiftStock_some _ _ k p hp)]

theorem restore_dom (s : State) (previousCart : List CartItem) (k : Nat) :
    (shiftStock (shiftStock s.productsMap (fun k => 1 * countId s.cart k))
      (fun k => -1 * countId previousCart k) k).isSome = (s.productsMap k).isSome := by
  rw [shiftStock_isSome, shiftStock_isSome]

theorem restore_rebalanced {catalog : List Product} {s : State} (h : StoreInv catalog s) (j : Int)
    (previousCart : List CartItem) (hj : index s.cartHistory j = some previousCart) :
    Rebalanced s
      { s with
        historyIndex := j
        cart := previousCart
        productsMap := shiftStock (shiftStock s.productsMap (fun k => 1 * countId s.cart k))
          (fun k => -1 * countId previousCart k) } := by
  have hmem := mem_of_index hj
  refine ⟨rfl, rfl, fun x hx => Or.inl hx, ?_, ?_, restore_dom s previousCart, ?_⟩
  · intro k q hq
    obtain ⟨p, hp⟩ := isSome_eq_of_eq_some (restore_dom s previousCart) hq
    simp only at hq
    rw [restore_value s previousCart k p hp] at hq
    cases hq
    exact h.keyed k p hp
  · intro item hitem
    simp only at hitem ⊢
    rw [restore_dom]
    exact h.histKnown previousCart hmem item hitem
  · intro k p q hp hq
    simp only at hq ⊢
    rw [restore_value s previousCart k p hp] at hq
    cases hq
    simp only
    omega

theorem restore_nonneg {s : State} (hb : BoundInv s) (j : Int)
    (previousCart : List CartItem) (hj : index s.cartHistory j = some previousCart) :
    StockNonneg (shiftStock (shiftStock s.productsMap (fun k => 1 * countId s.cart k))
      (fun k => -1 * countId previousCart k)) := by
  intro k q hq
  obtain ⟨p, hp⟩ := isSome_eq_of_eq_some (restore_dom s previousCart) hq
  rw [restore_value s previousCart k p hp] at hq
  cases hq
  have := hb.histBound previousCart (mem_of_index hj) k p hp
  simp only
  omega

theorem undoCart_cases {catalog : List Product} {s : State} (h : StoreInv catalog s)
    (hh : HistInv s) :
    (s.historyIndex ≤ 0 ∧ undoCart s = some s)
    ∨ ∃ previousCart, 0 < s.historyIndex
        ∧ index s.cartHistory (s.historyIndex - 1) = some previousCart
        ∧ undoCart s = some
          { s with
            historyIndex := s.historyIndex - 1
            cart := previousCart
            productsMap := shiftStock (shiftStock s.productsMap (fun k => 1 * countId s.cart k))
              (fun k => -1 * countId previousCart k) } := by
  by_cases h0 : s.historyIndex ≤ 0
  · left
    exact ⟨h0, by unfold undoCart; rw [if_pos h0]⟩
  · right
    have hb := histInv_bounds hh
    obtain ⟨c, hc⟩ := index_isSome_of_lt s.cartHistory (s.historyIndex - 1) (by omega) (by omega)
    refine ⟨c, by omega, hc, ?_⟩
    unfold undoCart
    rw [if_neg h0]
    exact restore_at h _ c hc

theorem redoCart_cases {catalog : List Product} {s : State} (h : StoreInv catalog s)
    (hh : HistInv s) :
    (s.historyIndex ≥ (s.cartHistory.length : Int) - 1 ∧ redoCart s = some s)
    ∨ ∃ previousCart, s.historyIndex < (s.cartHistory.length : Int) - 1
        ∧ index s.cartHistory (s.historyIndex + 1) = some previousCart
        ∧ redoCart s = some
          { s with
            historyIndex := s.historyIndex + 1
            cart := previousCart
            productsMap := shiftStock (shiftStock s.productsMap (fun k => 1 * countId s.cart k))
              (fun k => -1 * countId previousCart k) } := by
  by_cases h0 : s.historyIndex ≥ (s.cartHistory.length : Int) - 1
  · left
    exact ⟨h0, by unfold redoCart; rw [if_pos h0]⟩
  · right
    have hb := histInv_bounds hh
    obtain ⟨c, hc⟩ := index_isSome_of_lt s.cartHistory (s.historyIndex + 1) (by omega) (by omega)
    refine ⟨c, by omega, hc, ?_⟩
    unfold redoCart
    rw [if_neg h0]
    exact restore_at h _ c hc

theorem placeOrder_storeInv {catalog : List Product} {s : State} (h : StoreInv catalog s)
    (now : Nat) (stamp : String) : StoreInv catalog (placeOrder s now stamp) := by
  by_cases hc : s.cart = []
  · rw [placeOrder_empty s now stamp hc]; exact storeInv_alerts h _
  · rw [placeOrder_ok s now stamp hc]
    refine ⟨h.keyed, ?_, ?_, ?_⟩
    · intro item hitem; simp at hitem
    · intro x hx; simp at hx
    · intro k
      rw [← h.conserved k]
      cases hm : s.productsMap k with
      | none => rfl
      | some p =>
        simp only [Option.map_some', Option.some.injEq, orderedCount_append, orderedCount_cons,
          orderedCount_nil, countId_nil]
        push_cast
        omega

theorem placeOrder_boundInv {s : State} (hb : BoundInv s) (now : Nat) (stamp : String) :
    BoundInv (placeOrder s now stamp) := by
  by_cases hc : s.cart = []
  · rw [placeOrder_empty s now stamp hc]; exact boundInv_alerts hb _
  · rw [placeOrder_ok s now stamp hc]
    refine ⟨hb.nonneg, ?_⟩
    intro x hx; simp at hx

theorem placeOrder_histInv (s : State) (hh : HistInv s) (now : Nat) (stamp : String) :
    HistInv (placeOrder s now stamp) := by
  by_cases hc : s.cart = []
  · rw [placeOrder_empty s now stamp hc]; exact hh
  · rw [placeOrder_ok s now stamp hc]
    exact Or.inl ⟨rfl, rfl, rfl⟩

theorem processOrder_storeInv {catalog : List Product} {s : State} (h : StoreInv catalog s)
    (stamp : String) : StoreInv catalog (processOrder s stamp) := by
  unfold processOrder
  cases hq : s.orderQueue with
  | nil => exact h
  | cons o rest =>
    refine ⟨h.keyed, h.cartKnown, h.histKnown, ?_⟩
    intro k
    rw [← h.conserved k, hq]
    cases hm : s.productsMap k with
    | none => rfl
    | some p =>
      simp only [Option.map_some', Option.some.injEq, orderedCount_append, orderedCount_cons,
        Order.complete]
      push_cast
      omega

theorem processOrder_boundInv {s : State} (hb : BoundInv s) (stamp : String) :
    BoundInv (processOrder s stamp) := by
  unfold processOrder
  cases hq : s.orderQueue with
  | nil => exact hb
  | cons o rest => exact ⟨hb.nonneg, hb.histBound⟩

theorem processOrder_histInv (s : State) (hh : HistInv s) (stamp : String) :
    HistInv (processOrder s stamp) := by
  unfold processOrder
  cases hq : s.orderQueue with
  | nil => exact hh
  | cons o rest => exact hh

theorem step_inv {catalog : List Product} {s t : State} (c : Cmd)
    (h : StoreInv catalog s ∧ HistInv s) (hstep : step s c = some t) :
    StoreInv catalog t ∧ HistInv t := by
  obtain ⟨h1, h2⟩ := h
  cases c with
  | addToCart productId now =>
    cases hstep
    exact ⟨addToCart_storeInv h1 productId now, addToCart_histInv h2 productId now⟩
  | removeFromCart cartId =>
    exact ⟨removeFromCart_storeInv h1 cartId hstep, removeFromCart_histInv h1 h2 cartId hstep⟩
  | undoCart =>
    simp only [step] at hstep
    rcases undoCart_cases h1 h2 with ⟨_, he⟩ | ⟨c, h0, hc, he⟩
    · rw [he] at hstep; cases hstep; exact ⟨h1, h2⟩
    · rw [he] at hstep
      cases hstep
      exact ⟨storeInv_of_rebalanced h1 (restore_rebalanced h1 _ c hc),
        Or.inr ⟨by simp only; omega, hc⟩⟩
  | redoCart =>
    simp only [step] at hstep
    rcases redoCart_cases h1 h2 with ⟨_, he⟩ | ⟨c, h0, hc, he⟩
    · rw [he] at hstep; cases hstep; exact ⟨h1, h2⟩
    · rw [he] at hstep
      cases hstep
      have hb := histInv_bounds h2
      exact ⟨storeInv_of_rebalanced h1 (restore_rebalanced h1 _ c hc),
        Or.inr ⟨by simp only; omega, hc⟩⟩
  | placeOrder now stamp =>
    cases hstep
    exact ⟨placeOrder_storeInv h1 now stamp, placeOrder_histInv s h2 now stamp⟩
  | processOrder stamp =>
    cases hstep
    exact ⟨processOrder_storeInv h1 stamp, processOrder_histInv s h2 stamp⟩

theorem step_boundInv {catalog : List Product} {s t : State} (c : Cmd)
    (h : StoreInv catalog s ∧ HistInv s) (hb : BoundInv s) (hstep : step s c = some t) :
    BoundInv t := by
  obtain ⟨h1, h2⟩ := h
  cases c with
  | addToCart productId now =>
    cases hstep
    exact addToCart_boundInv h1 hb productId now
  | removeFromCart cartId => exact removeFromCart_boundInv h1 hb cartId hstep
  | undoCart =>
    simp only [step] at hstep
    rcases undoCart_cases h1 h2 with ⟨_, he⟩ | ⟨c, _, hc, he⟩
    · rw [he] at hstep; cases hstep; exact hb
    · rw [he] at hstep
      cases hstep
      exact boundInv_of_rebalanced hb (restore_rebalanced h1 _ c hc) (restore_nonneg hb _ c hc)
  | redoCart =>
    simp only [step] at hstep
    rcases redoCart_cases h1 h2 with ⟨_, he⟩ | ⟨c, _, hc, he⟩
    · rw [he] at hstep; cases hstep; exact hb
    · rw [he] at hstep
      cases hstep
      exact boundInv_of_rebalanced hb (restore_rebalanced h1 _ c hc) (restore_nonneg hb _ c hc)
  | placeOrder now stamp =>
    cases hstep
    exact placeOrder_boundInv hb now stamp
  | processOrder stamp =>
    cases hstep
    exact processOrder_boundInv hb stamp

theorem reachable_inv {catalog : List Product} {s : State} (hr : Reachable catalog s) :
    StoreInv catalog s ∧ HistInv s := by
  induction hr with
  | start => exact ⟨init_storeInv catalog, init_histInv catalog⟩
  | next c _ hstep ih => exact step_inv c ih hstep

theorem reachable_boundInv {catalog : List Product} (hc : ∀ p ∈ catalog, 0 ≤ p.stock)
    {s : State} (hr : Reachable catalog s) : BoundInv s := by
  induction hr with
  | start => exact init_boundInv catalog hc
  | next c hprev hstep ih => exact step_boundInv c (reachable_inv hprev) ih hstep

/-- From a consistent state every command runs to completion. -/
theorem step_isSome {catalog : List Product} {s : State} (h : StoreInv catalog s ∧ HistInv s)
    (c : Cmd) : ∃ t, step s c = some t := by
  obtain ⟨h1, h2⟩ := h
  cases c with
  | addToCart productId now => exact ⟨_, rfl⟩
  | removeFromCart cartId =>
    rcases removeFromCart_cases h1 cartId with ⟨_, he⟩ | ⟨_, _, _, _, _, _, _, _, he⟩
    · exact ⟨_, he⟩
    · exact ⟨_, he⟩
  | undoCart =>
    rcases undoCart_cases h1 h2 with ⟨_, he⟩ | ⟨_, _, _, he⟩
    · exact ⟨_, he⟩
    · exact ⟨_, he⟩
  | redoCart =>
    rcases redoCart_cases h1 h2 with ⟨_, he⟩ | ⟨_, _, _, he⟩
    · exact ⟨_, he⟩
    · exact ⟨_, he⟩
  | placeOrder now stamp => exact ⟨_, rfl⟩
  | processOrder stamp => exact ⟨_, rfl⟩

/-! ## Claims about the price index -/

/-- C1 (evaluation at the failing input).  With two products of equal price
10 inserted in catalog order, `searchByPriceRange 10 10` returns only the
first: the second one is in the catalog, its price lies in the range, and it
is not in the result. -/
theorem C1_equal_price_at_upper_bound_is_missed :
    (buildIndex
        [ { id := 1, name := "A", price := 10, stock := 1, category := "X" },
          { id := 2, name := "B", price := 10, stock := 1, category := "X" } ]).searchByPriceRange
        10 10
      = [ { id := 1, name := "A", price := 10, stock := 1, category := "X" } ]
    ∧ ({ id := 2, name := "B", price := 10, stock := 1, category := "X" } : Product) ∉
        (buildIndex
          [ { id := 1, name := "A", price := 10, stock := 1, category := "X" },
            { id := 2, name := "B", price := 10, stock := 1, category := "X" } ]).searchByPriceRange
          10 10 := by
  decide

/-- C10.  For a catalog with pairwise distinct prices, in any order, and any
`minPrice`, `maxPrice`: the tree built by `BST.insert` is a strict binary
search tree, and `searchByPriceRange` returns the catalog products whose
price lies in `[minPrice, maxPrice]`, each exactly once (the result is a
rearrangement of the filtered catalog and has no repetition), and nothing
else. -/
theorem C10_distinct_prices_range_query (catalog : List Product)
    (hd : catalog.Pairwise (fun a b => a.price ≠ b.price)) (minPrice maxPrice : Int) :
    (buildIndex catalog).root.IsStrictBST
    ∧ ((buildIndex catalog).searchByPriceRange minPrice maxPrice).Perm
        (catalog.filter (fun p => decide (minPrice ≤ p.price ∧ p.price ≤ maxPrice)))
    ∧ ((buildIndex catalog).searchByPriceRange minPrice maxPrice).Nodup
    ∧ ∀ p, p ∈ (buildIndex catalog).searchByPriceRange minPrice maxPrice
        ↔ p ∈ catalog ∧ minPrice ≤ p.price ∧ p.price ≤ maxPrice := by
  have hbst : (buildIndex catalog).root.IsStrictBST :=
    buildFrom_isStrictBST catalog { root := .null } trivial hd
      (fun x hx => by simp [BSTNode.products] at hx)
  have hperm : (buildIndex catalog).root.products.Perm catalog := by
    have := buildFrom_products_perm catalog { root := .null }
    simpa [BSTNode.products] using this
  have hsearch : (buildIndex catalog).searchByPriceRange minPrice maxPrice
      = (buildIndex catalog).root.products.filter
          (fun p => decide (minPrice ≤ p.price ∧ p.price ≤ maxPrice)) :=
    BSTNode.search_eq_filter minPrice maxPrice _ hbst
  have hnodup : catalog.Nodup := by
    refine hd.imp ?_
    intro a b hab hEq
    exact hab (by rw [hEq])
  have hp := hperm.filter (fun p => decide (minPrice ≤ p.price ∧ p.price ≤ maxPrice))
  refine ⟨hbst, ?_, ?_, ?_⟩
  · rw [hsearch]; exact hp
  · rw [hsearch]; exact (hp.nodup_iff.2 (hnodup.filter _))
  · intro p
    rw [hsearch, hp.mem_iff]
    simp [List.mem_filter]

/-- C10 at the ten-product catalog of `init`, for the range `[50, 300]`. -/
theorem C10_distinct_prices_range_query_witness :
    sampleProducts.Pairwise (fun a b => a.price ≠ b.price)
    ∧ (buildIndex sampleProducts).root.IsStrictBST
    ∧ ((buildIndex sampleProducts).searchByPriceRange 50 300).Perm
        (sampleProducts.filter (fun p => decide ((50 : Int) ≤ p.price ∧ p.price ≤ 300)))
    ∧ ((buildIndex sampleProducts).searchByPriceRange 50 300).Nodup
    ∧ ∀ p, p ∈ (buildIndex sampleProducts).searchByPriceRange 50 300
        ↔ p ∈ sampleProducts ∧ 50 ≤ p.price ∧ p.price ≤ 300 :=
  ⟨by decide, C10_distinct_prices_range_query sampleProducts (by decide) 50 300⟩


/-! ## Claims about stock -/

theorem reachable_twoMonitors : Reachable sampleProducts twoMonitors :=
  .next (.addToCart 5 2) (.next (.addToCart 5 1) .start rfl) rfl

theorem reachable_monitorOrdered : Reachable sampleProducts monitorOrdered :=
  .next (.placeOrder 2 "day 1") (.next (.addToCart 5 1) .start rfl) rfl

theorem sampleProducts_stock_nonneg : ∀ p ∈ sampleProducts, 0 ≤ p.stock := by
  decide

/-- C2 as stated fails.  After `addToCart(5)` and `placeOrder()` on the
ten-product catalog the Monitor has stock 1 and the cart is empty, while its
initial stock is 2. -/
theorem C2_counterexample :
    ¬ ∀ s, Reachable sampleProducts s → ∀ k p p0, s.productsMap k = some p →
        (init sampleProducts).productsMap k = some p0 →
        p.stock + (countId s.cart k : Int) = p0.stock := by
  intro h
  have h5 := h monitorOrdered reachable_monitorOrdered 5
    { id := 5, name := "Monitor", price := 299, stock := 1, category := "Electronics" }
    { id := 5, name := "Monitor", price := 299, stock := 2, category := "Electronics" } rfl rfl
  revert h5
  decide

/-- C2, amended.  In every reachable state, for every product key `k`: the
product is stored in the current map exactly when it was stored initially,
and its stock plus the number of cart line items with id `k` plus the number
of line items with id `k` in the placed orders (pending and completed) equals
its initial stock.  While no order has been placed the last summand is
zero. -/
theorem C2_stock_cart_orders_conserved (catalog : List Product) (s : State)
    (hr : Reachable catalog s) (k : Nat) :
    (∀ p0, (init catalog).productsMap k = some p0 →
      ∃ p, s.productsMap k = some p
        ∧ p.stock + (countId s.cart k : Int)
            + (orderedCount (s.orderQueue ++ s.completedOrders) k : Int) = p0.stock)
    ∧ (∀ p, s.productsMap k = some p →
      ∃ p0, (init catalog).productsMap k = some p0
        ∧ p.stock + (countId s.cart k : Int)
            + (orderedCount (s.orderQueue ++ s.completedOrders) k : Int) = p0.stock)
    ∧ (s.orderQueue = [] → s.completedOrders = [] →
      ∀ p p0, s.productsMap k = some p → (init catalog).productsMap k = some p0 →
        p.stock + (countId s.cart k : Int) = p0.stock) := by
  have hcons := (reachable_inv hr).1.conserved k
  have key : ∀ p p0, s.productsMap k = some p → (init catalog).productsMap k = some p0 →
      p.stock + (countId s.cart k : Int)
        + (orderedCount (s.orderQueue ++ s.completedOrders) k : Int) = p0.stock := by
    intro p p0 hp hp0
    rw [hp, hp0] at hcons
    simpa using hcons
  refine ⟨?_, ?_, ?_⟩
  · intro p0 hp0
    cases hp : s.productsMap k with
    | none => rw [hp, hp0] at hcons; cases hcons
    | some p => exact ⟨p, rfl, key p p0 hp hp0⟩
  · intro p hp
    cases hp0 : (init catalog).productsMap k with
    | none => rw [hp, hp0] at hcons; cases hcons
    | some p0 => exact ⟨p0, rfl, key p p0 hp hp0⟩
  · intro hq hd p p0 hp hp0
    have := key p p0 hp hp0
    rw [hq, hd] at this
    simpa [orderedCount_nil] using this

/-- C2 (amended) at the state reached by `addToCart(5)` and `placeOrder()`,
for the Monitor. -/
theorem C2_stock_cart_orders_conserved_witness :
    Reachable sampleProducts monitorOrdered
    ∧ ∃ p, monitorOrdered.productsMap 5 = some p
        ∧ p.stock + (countId monitorOrdered.cart 5 : Int)
            + (orderedCount (monitorOrdered.orderQueue ++ monitorOrdered.completedOrders) 5 : Int)
          = 2 :=
  ⟨reachable_monitorOrdered,
    (C2_stock_cart_orders_conserved sampleProducts monitorOrdered reachable_monitorOrdered 5).1
      { id := 5, name := "Monitor", price := 299, stock := 2, category := "Electronics" } rfl⟩

theorem countId_le_of_isPrefix {done items : List CartItem} (h : done <+: items) (k : Nat) :
    countId done k ≤ countId items k := by
  obtain ⟨rest, rfl⟩ := h
  rw [countId_append]
  omega

/-- C3.  In every state reachable from a catalog with stocks of at least
zero, every stock is at least zero.  Moreover, whenever `undoCart` or
`redoCart` gets past its guard and calls `restoreCartFromHistory` with the
index moved to `j`: the entry at `j` exists, both `forEach` loops run to
completion, and at every intermediate point (after any initial segment
`done` of the discarded cart has been returned, and, starting from the map
with the whole discarded cart returned, after any initial segment `done` of
the restored cart has been reserved) every stock is at least zero. -/
theorem C3_stock_never_negative (catalog : List Product) (hc : ∀ p ∈ catalog, 0 ≤ p.stock)
    (s : State) (hr : Reachable catalog s) :
    StockNonneg s.productsMap
    ∧ ∀ j : Int,
        ((¬ s.historyIndex ≤ 0 ∧ j = s.historyIndex - 1)
          ∨ (¬ s.historyIndex ≥ (s.cartHistory.length : Int) - 1 ∧ j = s.historyIndex + 1)) →
        ∃ previousCart returned t,
          index s.cartHistory j = some previousCart
          ∧ forEachStock 1 s.productsMap s.cart = some returned
          ∧ restoreCartFromHistory { s with historyIndex := j } = some t
          ∧ StockNonneg t.productsMap
          ∧ (∀ done, done <+: s.cart →
              ∃ m, forEachStock 1 s.productsMap done = some m ∧ StockNonneg m)
          ∧ (∀ done, done <+: previousCart →
              ∃ m, forEachStock (-1) returned done = some m ∧ StockNonneg m) := by
  obtain ⟨h1, h2⟩ := reachable_inv hr
  have hb3 := reachable_boundInv hc hr
  refine ⟨hb3.nonneg, ?_⟩
  intro j hj
  have hb := histInv_bounds h2
  have hjb : 0 ≤ j ∧ j < s.cartHistory.length := by
    rcases hj with ⟨h0, rfl⟩ | ⟨h0, rfl⟩ <;> omega
  obtain ⟨prev, hprev⟩ := index_isSome_of_lt s.cartHistory j hjb.1 hjb.2
  have hmem := mem_of_index hprev
  have hret := forEachStock_eq 1 s.cart s.productsMap h1.cartKnown
  refine ⟨prev, _, _, hprev, hret, restore_at h1 j prev hprev,
    restore_nonneg hb3 j prev hprev, ?_, ?_⟩
  · intro done hdone
    have hknown : ∀ item ∈ done, (s.productsMap item.id).isSome = true :=
      fun item hitem => h1.cartKnown item (hdone.subset hitem)
    refine ⟨_, forEachStock_eq 1 done s.productsMap hknown, ?_⟩
    intro k q hq
    obtain ⟨p, hp, rfl⟩ := shiftStock_eq_some _ _ k q hq
    have := hb3.nonneg k p hp
    simp only
    omega
  · intro done hdone
    have hknown : ∀ item ∈ done,
        (shiftStock s.productsMap (fun k => 1 * countId s.cart k) item.id).isSome = true := by
      intro item hitem
      rw [shiftStock_isSome]
      exact h1.histKnown prev hmem item (hdone.subset hitem)
    refine ⟨_, forEachStock_eq (-1) done _ hknown, ?_⟩
    intro k q hq
    obtain ⟨p1, hp1, rfl⟩ := shiftStock_eq_some _ _ k q hq
    obtain ⟨p, hp, rfl⟩ := shiftStock_eq_some _ _ k p1 hp1
    have hbound := hb3.histBound prev hmem k p hp
    have hle := countId_le_of_isPrefix hdone k
    simp only
    omega

/-- C3 at the state with two Monitors in the cart (stock 0), where undo is
enabled and moves the index from 1 to 0. -/
theorem C3_stock_never_negative_witness :
    (∀ p ∈ sampleProducts, 0 ≤ p.stock) ∧ Reachable sampleProducts twoMonitors
    ∧ (¬ twoMonitors.historyIndex ≤ 0 ∧ (0 : Int) = twoMonitors.historyIndex - 1)
    ∧ StockNonneg twoMonitors.productsMap
    ∧ ∃ previousCart returned t,
        index twoMonitors.cartHistory 0 = some previousCart
        ∧ forEachStock 1 twoMonitors.productsMap twoMonitors.cart = some returned
        ∧ restoreCartFromHistory { twoMonitors with historyIndex := 0 } = some t
        ∧ StockNonneg t.productsMap
        ∧ (∀ done, done <+: twoMonitors.cart →
            ∃ m, forEachStock 1 twoMonitors.productsMap done = some m ∧ StockNonneg m)
        ∧ (∀ done, done <+: previousCart →
            ∃ m, forEachStock (-1) returned done = some m ∧ StockNonneg m) :=
  have hg : ¬ twoMonitors.historyIndex ≤ 0 ∧ (0 : Int) = twoMonitors.historyIndex - 1 := by
    decide
  ⟨sampleProducts_stock_nonneg, reachable_twoMonitors, hg,
    (C3_stock_never_negative sampleProducts sampleProducts_stock_nonneg twoMonitors
      reachable_twoMonitors).1,
    (C3_stock_never_negative sampleProducts sampleProducts_stock_nonneg twoMonitors
      reachable_twoMonitors).2 0 (Or.inl hg)⟩


/-! ## Claims about undo and redo -/

theorem State.eq_of_fields (a b : State) (h1 : a.productsMap = b.productsMap)
    (h2 : a.cart = b.cart) (h3 : a.orderQueue = b.orderQueue)
    (h4 : a.completedOrders = b.completedOrders) (h5 : a.cartHistory = b.cartHistory)
    (h6 : a.historyIndex = b.historyIndex) (h7 : a.alerts = b.alerts) : a = b := by
  cases a
  cases b
  simp only at h1 h2 h3 h4 h5 h6 h7
  subst h1 h2 h3 h4 h5 h6 h7
  rfl

theorem shiftStock_cancel (m : ProductsMap) (a b : Nat → Int) :
    shiftStock (shiftStock (shiftStock (shiftStock m (fun k => 1 * a k)) (fun k => -1 * b k))
      (fun k => 1 * b k)) (fun k => -1 * a k) = m := by
  funext k
  cases h : m k with
  | none => simp [shiftStock, h]
  | some p =>
    simp only [shiftStock, h, Option.map_some', Option.some.injEq]
    cases p
    simp only [Product.mk.injEq, true_and, and_true]
    ring

/-- When undo is enabled in a consistent state, `undoCart` followed by
`redoCart` gives the state back. -/
theorem undo_redo {catalog : List Product} {u : State} (h1 : StoreInv catalog u)
    (h2 : HistInv u) (h0 : 0 < u.historyIndex) :
    ∃ v, undoCart u = some v ∧ redoCart v = some u := by
  have hb := histInv_bounds h2
  have hcur : index u.cartHistory u.historyIndex = some u.cart := by
    rcases h2 with ⟨hneg, _, _⟩ | ⟨_, hidx⟩
    · omega
    · exact hidx
  rcases undoCart_cases h1 h2 with ⟨hle, _⟩ | ⟨prev, _, hprev, hundo⟩
  · omega
  · refine ⟨_, hundo, ?_⟩
    have hv1 := storeInv_of_rebalanced h1 (restore_rebalanced h1 (u.historyIndex - 1) prev hprev)
    have hv2 : HistInv
        { u with
          historyIndex := u.historyIndex - 1
          cart := prev
          productsMap := shiftStock (shiftStock u.productsMap (fun k => 1 * countId u.cart k))
            (fun k => -1 * countId prev k) } :=
      Or.inr ⟨by simp only; omega, hprev⟩
    rcases redoCart_cases hv1 hv2 with ⟨hge, _⟩ | ⟨next, _, hnext, hredo⟩
    · simp only at hge
      omega
    · rw [hredo]
      simp only at hnext
      rw [show u.historyIndex - 1 + 1 = u.historyIndex by omega, hcur] at hnext
      cases hnext
      congr 1
      apply State.eq_of_fields
      · exact shiftStock_cancel u.productsMap _ _
      · rfl
      · rfl
      · rfl
      · rfl
      · simp only; omega
      · rfl

/-- C4.  From a reachable state in which `addToCart(productId)` succeeds
(the product exists and its stock is not 0), `addToCart`, then `undoCart`,
then `redoCart` all run to completion and end in the state that `addToCart`
produced; in particular the cart is again the old cart followed by the new
line item (same items, same order, same `cartId` and product fields). -/
theorem C4_add_undo_redo_round_trip (catalog : List Product)
    (s : State) (hr : Reachable catalog s) (productId now : Nat) (p : Product)
    (hp : s.productsMap productId = some p) (h0 : p.stock ≠ 0) :
    ∃ afterUndo afterRedo,
      undoCart (addToCart s productId now) = some afterUndo
      ∧ redoCart afterUndo = some afterRedo
      ∧ afterRedo.cart = (addToCart s productId now).cart
      ∧ afterRedo.cart = s.cart ++ [lineItem p now]
      ∧ afterRedo = addToCart s productId now := by
  obtain ⟨h1, h2⟩ := reachable_inv hr
  have g1 := addToCart_storeInv h1 productId now
  have g2 := addToCart_histInv h2 productId now
  have hcart : (addToCart s productId now).cart = s.cart ++ [lineItem p now] := by
    rw [addToCart_ok s productId now p hp h0]
    rfl
  by_cases hpos : 0 < (addToCart s productId now).historyIndex
  · obtain ⟨v, hv1, hv2⟩ := undo_redo g1 g2 hpos
    exact ⟨v, _, hv1, hv2, rfl, hcart, rfl⟩
  · have hundo : undoCart (addToCart s productId now) = some (addToCart s productId now) := by
      unfold undoCart
      rw [if_pos (by omega)]
    have hredo : redoCart (addToCart s productId now) = some (addToCart s productId now) := by
      have hb := histInv_bounds h2
      have hlen := length_saved s.cartHistory s.historyIndex (s.cart ++ [lineItem p now])
        hb.1 hb.2
      unfold redoCart
      rw [if_pos]
      rw [addToCart_ok s productId now p hp h0]
      simp only [saveCartHistory]
      omega
    exact ⟨_, _, hundo, hredo, rfl, hcart, rfl⟩

/-- C4 at the state with one Monitor in the cart: a second `addToCart(5)`,
then undo, then redo. -/
theorem C4_add_undo_redo_round_trip_witness :
    Reachable sampleProducts (addToCart (init sampleProducts) 5 1)
    ∧ (addToCart (init sampleProducts) 5 1).productsMap 5
        = some { id := 5, name := "Monitor", price := 299, stock := 1, category := "Electronics" }
    ∧ ∃ afterUndo afterRedo,
        undoCart (addToCart (addToCart (init sampleProducts) 5 1) 5 2) = some afterUndo
        ∧ redoCart afterUndo = some afterRedo
        ∧ afterRedo.cart = (addToCart (addToCart (init sampleProducts) 5 1) 5 2).cart
        ∧ afterRedo.cart = (addToCart (init sampleProducts) 5 1).cart
            ++ [lineItem
              { id := 5, name := "Monitor", price := 299, stock := 1, category := "Electronics" } 2]
        ∧ afterRedo = addToCart (addToCart (init sampleProducts) 5 1) 5 2 :=
  ⟨.next (.addToCart 5 1) .start rfl, rfl,
    C4_add_undo_redo_round_trip sampleProducts
      (addToCart (init sampleProducts) 5 1) (.next (.addToCart 5 1) .start rfl) 5 2
      { id := 5, name := "Monitor", price := 299, stock := 1, category := "Electronics" } rfl
      (by decide)⟩

/-- C5.  From a reachable state with undo enabled (`historyIndex > 0`),
`undoCart` runs to completion; if `addToCart(productId)` then succeeds (the
product exists with stock not 0 in the state after the undo), the history is
the first `historyIndex` entries of the old history (those up to and
including the index the undo moved to) followed by the new cart, so the
entries that were after that index are gone; `historyIndex` is
`cartHistory.length - 1`; and `redoCart` returns the state unchanged. -/
theorem C5_add_after_undo_drops_redo (catalog : List Product)
    (s : State) (hr : Reachable catalog s) (hu : 0 < s.historyIndex) :
    ∃ afterUndo, undoCart s = some afterUndo
      ∧ afterUndo.historyIndex = s.historyIndex - 1
      ∧ afterUndo.cartHistory = s.cartHistory
      ∧ ∀ productId now p, afterUndo.productsMap productId = some p → p.stock ≠ 0 →
          (addToCart afterUndo productId now).cartHistory
              = s.cartHistory.take s.historyIndex.toNat
                ++ [(addToCart afterUndo productId now).cart]
          ∧ (addToCart afterUndo productId now).cart = afterUndo.cart ++ [lineItem p now]
          ∧ (addToCart afterUndo productId now).historyIndex
              = ((addToCart afterUndo productId now).cartHistory.length : Int) - 1
          ∧ redoCart (addToCart afterUndo productId now)
              = some (addToCart afterUndo productId now) := by
  obtain ⟨h1, h2⟩ := reachable_inv hr
  have hb := histInv_bounds h2
  rcases undoCart_cases h1 h2 with ⟨hle, _⟩ | ⟨prev, _, hprev, hundo⟩
  · omega
  · refine ⟨_, hundo, rfl, rfl, ?_⟩
    intro productId now p hp h0
    rw [addToCart_ok _ productId now p hp h0]
    have hlen := length_saved s.cartHistory (s.historyIndex - 1) (prev ++ [lineItem p now])
      (by omega) (by omega)
    have hslice : slice0 s.cartHistory (s.historyIndex - 1 + 1)
        = s.cartHistory.take s.historyIndex.toNat := by
      rw [slice0_of_nonneg _ _ (by omega), show s.historyIndex - 1 + 1 = s.historyIndex by omega]
    refine ⟨?_, rfl, ?_, ?_⟩
    · simp only [saveCartHistory]
      rw [hslice]
    · simp only [saveCartHistory]
      omega
    · unfold redoCart
      rw [if_pos]
      simp only [saveCartHistory]
      omega

/-- C5 at the state with two Monitors in the cart: undo, then
`addToCart(3)` (the Mouse, stock 50) at clock reading 3.  The history keeps
its first entry only, followed by the new cart, and redo does nothing. -/
theorem C5_add_after_undo_drops_redo_witness :
    Reachable sampleProducts twoMonitors
    ∧ 0 < twoMonitors.historyIndex
    ∧ ∃ afterUndo, undoCart twoMonitors = some afterUndo
      ∧ afterUndo.productsMap 3
          = some { id := 3, name := "Mouse", price := 49, stock := 50, category := "Electronics" }
      ∧ (addToCart afterUndo 3 3).cartHistory
          = twoMonitors.cartHistory.take 1 ++ [(addToCart afterUndo 3 3).cart]
      ∧ (addToCart afterUndo 3 3).historyIndex
          = ((addToCart afterUndo 3 3).cartHistory.length : Int) - 1
      ∧ redoCart (addToCart afterUndo 3 3) = some (addToCart afterUndo 3 3) := by
  obtain ⟨u, hu, _, _, h⟩ := C5_add_after_undo_drops_redo sampleProducts
    twoMonitors reachable_twoMonitors (by decide)
  have hm : u.productsMap 3
      = some { id := 3, name := "Mouse", price := 49, stock := 50, category := "Electronics" } := by
    have e : (undoCart twoMonitors).map (fun t => t.productsMap 3)
        = some (some { id := 3, name := "Mouse", price := 49, stock := 50,
                       category := "Electronics" }) := rfl
    rw [hu] at e
    exact Option.some.inj e
  obtain ⟨a1, _, a3, a4⟩ := h 3 3 _ hm (by decide)
  exact ⟨reachable_twoMonitors, by decide, u, hu, hm, a1, a3, a4⟩

/-! ## Claims about the order queue -/

theorem processOrders_fields (stamps : List String) (s : State) :
    (processOrders s stamps).orderQueue = s.orderQueue.drop stamps.length
    ∧ (processOrders s stamps).completedOrders
        = (List.zipWith Order.complete s.orderQueue stamps).reverse ++ s.completedOrders
    ∧ (processOrders s stamps).cart = s.cart
    ∧ (processOrders s stamps).productsMap = s.productsMap
    ∧ (processOrders s stamps).cartHistory = s.cartHistory
    ∧ (processOrders s stamps).historyIndex = s.historyIndex
    ∧ (processOrders s stamps).alerts = s.alerts := by
  induction stamps generalizing s with
  | nil => simp [processOrders]
  | cons stamp rest ih =>
    have hstep : processOrders s (stamp :: rest) = processOrders (processOrder s stamp) rest := rfl
    rw [hstep]
    obtain ⟨i1, i2, i3, i4, i5, i6, i7⟩ := ih (processOrder s stamp)
    rw [i1, i2, i3, i4, i5, i6, i7]
    unfold processOrder
    cases hq : s.orderQueue with
    | nil => simp [hq]
    | cons o others => simp

/-- C6.  `processOrder` on an empty pending queue returns the state
unchanged; on a queue `o :: rest` it removes `o`, the order placed first,
marks it completed with the completion timestamp and puts it at the head of
the completed log.  Calling it once per element of `stamps` removes the first
`stamps.length` pending orders in placement order and leaves the completed
log equal to those orders, marked and in reverse placement order, followed by
the old log; cart, catalog and history are untouched.  With as many calls as
there are pending orders the queue ends empty, and every order added to the
log has status `completed` and a completion timestamp. -/
theorem C6_process_orders_fifo (s : State) (stamps : List String) :
    (s.orderQueue = [] → ∀ stamp, processOrder s stamp = s)
    ∧ (∀ o rest stamp, s.orderQueue = o :: rest →
        processOrder s stamp =
          { s with
            orderQueue := rest
            completedOrders :=
              { o with status := "completed", completedAt := some stamp } :: s.completedOrders })
    ∧ (processOrders s stamps).orderQueue = s.orderQueue.drop stamps.length
    ∧ (processOrders s stamps).completedOrders
        = (List.zipWith (fun o stamp => { o with status := "completed", completedAt := some stamp })
            s.orderQueue stamps).reverse ++ s.completedOrders
    ∧ (processOrders s stamps).cart = s.cart
    ∧ (processOrders s stamps).productsMap = s.productsMap
    ∧ (processOrders s stamps).cartHistory = s.cartHistory
    ∧ (processOrders s stamps).historyIndex = s.historyIndex
    ∧ (stamps.length = s.orderQueue.length →
        (processOrders s stamps).orderQueue = []
        ∧ (processOrders s stamps).completedOrders.length
            = s.orderQueue.length + s.completedOrders.length
        ∧ ((processOrders s stamps).completedOrders.take s.orderQueue.length).map
              (fun o => (o.id, o.items, o.total, o.timestamp))
            = s.orderQueue.reverse.map (fun o => (o.id, o.items, o.total, o.timestamp))
        ∧ ∀ o ∈ (processOrders s stamps).completedOrders.take s.orderQueue.length,
            o.status = "completed" ∧ o.completedAt.isSome = true) := by
  obtain ⟨i1, i2, i3, i4, i5, i6, _⟩ := processOrders_fields stamps s
  refine ⟨?_, ?_, i1, i2, i3, i4, i5, i6, ?_⟩
  · intro hq stamp
    unfold processOrder
    rw [hq]
  · intro o rest stamp hq
    unfold processOrder
    rw [hq]
    rfl
  · intro hlen
    have htake : (processOrders s stamps).completedOrders.take s.orderQueue.length
        = (List.zipWith Order.complete s.orderQueue stamps).reverse := by
      rw [i2]
      apply List.take_left'
      simp [hlen]
    refine ⟨?_, ?_, ?_, ?_⟩
    · rw [i1, hlen]; simp
    · rw [i2]; simp [hlen]
    · rw [htake, List.map_reverse, List.map_reverse]
      congr 1
      rw [List.map_zipWith]
      have : ∀ (xs : List Order) (ys : List String), ys.length = xs.length →
          List.zipWith (fun o stamp => ((o.complete stamp).id, (o.complete stamp).items,
            (o.complete stamp).total, (o.complete stamp).timestamp)) xs ys
          = xs.map (fun o => (o.id, o.items, o.total, o.timestamp)) := by
        intro xs
        induction xs with
        | nil => intro ys _; simp
        | cons x xs ih =>
          intro ys hys
          cases ys with
          | nil => simp at hys
          | cons y ys =>
            simp only [List.zipWith_cons_cons, List.map_cons]
            rw [ih ys (by simpa using hys)]
            rfl
      exact this _ _ hlen
    · intro o ho
      rw [htake, List.mem_reverse] at ho
      have : ∀ (xs : List Order) (ys : List String), ∀ o ∈ List.zipWith Order.complete xs ys,
          o.status = "completed" ∧ o.completedAt.isSome = true := by
        intro xs
        induction xs with
        | nil => intro ys o ho; simp at ho
        | cons x xs ih =>
          intro ys o ho
          cases ys with
          | nil => simp at ho
          | cons y ys =>
            simp only [List.zipWith_cons_cons, List.mem_cons] at ho
            rcases ho with rfl | ho
            · exact ⟨rfl, rfl⟩
            · exact ih ys o ho
      exact this _ _ o ho


/-! ## Claims about the cart operations -/

theorem saved_history {s : State} (h : HistInv s) (cart : List CartItem) (m : ProductsMap) :
    (saveCartHistory { s with cart := cart, productsMap := m }).cartHistory
        = s.cartHistory.take (s.historyIndex + 1).toNat ++ [cart]
    ∧ (saveCartHistory { s with cart := cart, productsMap := m }).historyIndex
        = s.historyIndex + 1
    ∧ index (saveCartHistory { s with cart := cart, productsMap := m }).cartHistory
        (s.historyIndex + 1) = some cart
    ∧ ((saveCartHistory { s with cart := cart, productsMap := m }).cartHistory.length : Int)
        = s.historyIndex + 2 := by
  obtain ⟨h1, h2⟩ := histInv_bounds h
  refine ⟨?_, rfl, index_saved s.cartHistory s.historyIndex cart h1 h2,
    length_saved s.cartHistory s.historyIndex cart h1 h2⟩
  simp only [saveCartHistory]
  rw [slice0_of_nonneg _ _ (by omega)]

/-- C7.  In a reachable state, `addToCart(productId)` raises the
out-of-stock alert exactly when the id is not in the catalog or the product's
stock is 0, and then nothing but the alert log changes.  Otherwise it raises
no alert, appends to the end of the cart one line item whose `id`, `name`,
`price`, `stock` and `category` are those of the stored product (the stock
as it was before the call) and whose `cartId` is the clock reading, stores
the product with its stock lowered by exactly 1, leaves every
other catalog entry as it was, leaves both order lists as they were, and
records one history entry equal to the new cart (the history is the old
entries up to and including the old index, followed by the new cart, and
`historyIndex` points at it).  Scenario on the ten-product catalog (Monitor:
id 5, price 299, stock 2): two calls bring the stock to 0, the cart then
holds two copies of the Monitor record (taken at stock 2 and at stock 1), and
the third call fails. -/
theorem C7_addToCart_contract (catalog : List Product)
    (s : State) (hr : Reachable catalog s) (productId now : Nat) :
    ((addToCart s productId now).alerts = s.alerts ++ ["Product out of stock!"]
        ↔ (s.productsMap productId = none
            ∨ ∃ p, s.productsMap productId = some p ∧ p.stock = 0))
    ∧ ((s.productsMap productId = none ∨ ∃ p, s.productsMap productId = some p ∧ p.stock = 0) →
        addToCart s productId now = { s with alerts := s.alerts ++ ["Product out of stock!"] })
    ∧ (∀ p, s.productsMap productId = some p → p.stock ≠ 0 →
        (addToCart s productId now).cart
            = s.cart ++ [
                { id := p.id, name := p.name, price := p.price, stock := p.stock,
                  category := p.category, cartId := now }]
        ∧ (addToCart s productId now).productsMap productId
            = some { p with stock := p.stock - 1 }
        ∧ (∀ k, k ≠ productId → (addToCart s productId now).productsMap k = s.productsMap k)
        ∧ (addToCart s productId now).cartHistory
            = s.cartHistory.take (s.historyIndex + 1).toNat ++ [(addToCart s productId now).cart]
        ∧ (addToCart s productId now).historyIndex = s.historyIndex + 1
        ∧ index (addToCart s productId now).cartHistory (addToCart s productId now).historyIndex
            = some (addToCart s productId now).cart
        ∧ (addToCart s productId now).orderQueue = s.orderQueue
        ∧ (addToCart s productId now).completedOrders = s.completedOrders
        ∧ (addToCart s productId now).alerts = s.alerts)
    ∧ ((twoMonitors.productsMap 5).map (fun p => p.stock) = some 0
        ∧ ((addToCart (init sampleProducts) 5 1).productsMap 5).map (fun p => p.stock) = some 1
        ∧ ((init sampleProducts).productsMap 5).map (fun p => (p.price, p.stock)) = some (299, 2)
        ∧ twoMonitors.cart
            = [ { id := 5, name := "Monitor", price := 299, stock := 2,
                  category := "Electronics", cartId := 1 },
                { id := 5, name := "Monitor", price := 299, stock := 1,
                  category := "Electronics", cartId := 2 } ]
        ∧ twoMonitors.alerts = []
        ∧ addToCart twoMonitors 5 3
            = { twoMonitors with alerts := twoMonitors.alerts ++ ["Product out of stock!"] }) := by
  obtain ⟨_, h2⟩ := reachable_inv hr
  have hfail : (s.productsMap productId = none
      ∨ ∃ p, s.productsMap productId = some p ∧ p.stock = 0) →
      addToCart s productId now = { s with alerts := s.alerts ++ ["Product out of stock!"] } := by
    rintro (hm | ⟨p, hm, h0⟩)
    · exact addToCart_missing s productId now hm
    · exact addToCart_empty s productId now p hm h0
  have hok : ∀ p, s.productsMap productId = some p → p.stock ≠ 0 →
      (addToCart s productId now).alerts = s.alerts := by
    intro p hm h0
    rw [addToCart_ok s productId now p hm h0]
    rfl
  refine ⟨⟨?_, ?_⟩, hfail, ?_, ?_⟩
  · intro halert
    cases hm : s.productsMap productId with
    | none => exact Or.inl rfl
    | some p =>
      by_cases h0 : p.stock = 0
      · exact Or.inr ⟨p, rfl, h0⟩
      · rw [hok p hm h0] at halert
        have := congrArg List.length halert
        simp at this
  · intro h
    rw [hfail h]
  · intro p hm h0
    rw [addToCart_ok s productId now p hm h0]
    obtain ⟨s1, s2, s3, _⟩ := saved_history h2 (s.cart ++ [lineItem p now])
      (mapSet s.productsMap productId { p with stock := p.stock - 1 })
    refine ⟨rfl, mapSet_same _ _ _, fun k hk => mapSet_other _ _ _ k hk, s1, s2, ?_, rfl, rfl, rfl⟩
    rw [s2]
    exact s3
  · refine ⟨rfl, rfl, rfl, rfl, rfl, ?_⟩
    exact addToCart_empty twoMonitors 5 3
      { id := 5, name := "Monitor", price := 299, stock := 0, category := "Electronics" } rfl rfl

/-- C7 at the state with one Monitor in the cart and stock 1 left. -/
theorem C7_addToCart_contract_witness :
    Reachable sampleProducts (addToCart (init sampleProducts) 5 1)
    ∧ (addToCart (init sampleProducts) 5 1).productsMap 5
        = some { id := 5, name := "Monitor", price := 299, stock := 1, category := "Electronics" }
    ∧ (addToCart (addToCart (init sampleProducts) 5 1) 5 2).cart
        = (addToCart (init sampleProducts) 5 1).cart
          ++ [ { id := 5, name := "Monitor", price := 299, stock := 1,
                 category := "Electronics", cartId := 2 } ]
    ∧ (addToCart (addToCart (init sampleProducts) 5 1) 5 2).productsMap 5
        = some { id := 5, name := "Monitor", price := 299, stock := 1 - 1,
                 category := "Electronics" } :=
  have h := (C7_addToCart_contract sampleProducts
    (addToCart (init sampleProducts) 5 1) (.next (.addToCart 5 1) .start rfl) 5 2).2.2.1
    { id := 5, name := "Monitor", price := 299, stock := 1, category := "Electronics" } rfl
    (by decide)
  ⟨.next (.addToCart 5 1) .start rfl, rfl, h.1, h.2.1⟩

/-- C8.  In a reachable state, `removeFromCart(cartId)` returns the state
unchanged when no cart item has that `cartId`.  Otherwise, with `item` the
first cart item carrying it, the call runs to completion, the cart is the old
cart without that one occurrence (the other items in their order), the
product of `item` is stored with its stock raised by exactly 1, every other
catalog entry, both order lists and the alert log are as before, and one
history entry equal to the new cart is recorded.  Scenario on the ten-product
catalog: with two Monitors in the cart (stock 0), removing the first line
item brings the stock to 1. -/
theorem C8_removeFromCart_contract (catalog : List Product)
    (s : State) (hr : Reachable catalog s) (cartId : Nat) :
    ((∀ item ∈ s.cart, item.cartId ≠ cartId) → removeFromCart s cartId = some s)
    ∧ (∀ before item after, s.cart = before ++ item :: after →
        (∀ x ∈ before, x.cartId ≠ cartId) → item.cartId = cartId →
        ∃ t p, removeFromCart s cartId = some t
          ∧ s.productsMap item.id = some p
          ∧ t.cart = before ++ after
          ∧ t.productsMap item.id = some { p with stock := p.stock + 1 }
          ∧ (∀ k, k ≠ item.id → t.productsMap k = s.productsMap k)
          ∧ t.cartHistory = s.cartHistory.take (s.historyIndex + 1).toNat ++ [t.cart]
          ∧ t.historyIndex = s.historyIndex + 1
          ∧ index t.cartHistory t.historyIndex = some t.cart
          ∧ t.orderQueue = s.orderQueue
          ∧ t.completedOrders = s.completedOrders
          ∧ t.alerts = s.alerts)
    ∧ ((twoMonitors.productsMap 5).map (fun p => p.stock) = some 0
        ∧ (removeFromCart twoMonitors 1).map
            (fun t => ((t.productsMap 5).map (fun p => p.stock),
              t.cart.map (fun item => (item.id, item.cartId))))
          = some (some 1, [(5, 2)])) := by
  obtain ⟨h1, h2⟩ := reachable_inv hr
  refine ⟨removeFromCart_absent s cartId, ?_, ?_⟩
  · intro before item after hcart hb hi
    have hknown := h1.cartKnown item (by rw [hcart]; simp)
    obtain ⟨p, hp⟩ := Option.isSome_iff_exists.1 hknown
    obtain ⟨s1, s2, s3, _⟩ := saved_history h2 (before ++ after)
      (mapSet s.productsMap item.id { p with stock := p.stock + 1 })
    refine ⟨_, p, removeFromCart_present s cartId before item after p hcart hb hi hp, hp, rfl,
      mapSet_same _ _ _, fun k hk => mapSet_other _ _ _ k hk, s1, s2, ?_, rfl, rfl, rfl⟩
    rw [s2]
    exact s3
  · exact ⟨rfl, rfl⟩

/-- C8 at the state with two Monitors in the cart, removing the line item
with `cartId` 2 (the second one). -/
theorem C8_removeFromCart_contract_witness :
    Reachable sampleProducts twoMonitors
    ∧ twoMonitors.cart
        = [lineItem
            { id := 5, name := "Monitor", price := 299, stock := 2, category := "Electronics" } 1]
          ++ lineItem
            { id := 5, name := "Monitor", price := 299, stock := 1, category := "Electronics" } 2
          :: []
    ∧ ∃ t p, removeFromCart twoMonitors 2 = some t
        ∧ twoMonitors.productsMap 5 = some p
        ∧ t.cart
          = [lineItem
              { id := 5, name := "Monitor", price := 299, stock := 2, category := "Electronics" } 1]
            ++ []
        ∧ t.productsMap 5 = some { p with stock := p.stock + 1 } :=
  have h := (C8_removeFromCart_contract sampleProducts twoMonitors
    reachable_twoMonitors 2).2.1
    [lineItem { id := 5, name := "Monitor", price := 299, stock := 2, category := "Electronics" } 1]
    (lineItem { id := 5, name := "Monitor", price := 299, stock := 1, category := "Electronics" } 2)
    [] rfl (by decide) rfl
  ⟨reachable_twoMonitors, rfl,
    h.elim fun t ht => ht.elim fun p hp => ⟨t, p, hp.1, hp.2.1, hp.2.2.1, hp.2.2.2.1⟩⟩


theorem foldl_price_sum (items : List CartItem) (start : Int) :
    items.foldl (fun sum item => sum + item.price) start
      = start + (items.map (fun item => item.price)).sum := by
  induction items generalizing start with
  | nil => simp
  | cons x rest ih =>
    simp only [List.foldl_cons, List.map_cons, List.sum_cons]
    rw [ih]
    omega

/-- C9.  `placeOrder` on an empty cart raises the empty-cart alert and
changes nothing else.  On a non-empty cart it appends to the tail of the
pending queue one order whose items are the cart's line items in order,
whose total is the sum of their prices and whose status is `pending`; the
earlier pending orders, the completed log and the catalog are unchanged; the
cart and the history are empty and `historyIndex` is -1, so that `undoCart`
and `redoCart` both return the state unchanged.  On a two-item cart whose
prices sum to 150 the new order's total is 150. -/
theorem C9_placeOrder_contract (s : State) (now : Nat) (stamp : String) :
    (s.cart = [] →
      placeOrder s now stamp = { s with alerts := s.alerts ++ ["Cart is empty!"] })
    ∧ (s.cart ≠ [] →
      (placeOrder s now stamp).orderQueue
          = s.orderQueue ++ [
              { id := now
                items := s.cart
                total := (s.cart.map (fun item => item.price)).sum
                timestamp := stamp
                status := "pending"
                completedAt := none }]
      ∧ (placeOrder s now stamp).completedOrders = s.completedOrders
      ∧ (placeOrder s now stamp).productsMap = s.productsMap
      ∧ (placeOrder s now stamp).cart = []
      ∧ (placeOrder s now stamp).cartHistory = []
      ∧ (placeOrder s now stamp).historyIndex = -1
      ∧ (placeOrder s now stamp).alerts = s.alerts ++ ["Order placed successfully!"]
      ∧ undoCart (placeOrder s now stamp) = some (placeOrder s now stamp)
      ∧ redoCart (placeOrder s now stamp) = some (placeOrder s now stamp))
    ∧ (∀ a b, s.cart = [a, b] → a.price + b.price = 150 →
      ∃ order, (placeOrder s now stamp).orderQueue = s.orderQueue ++ [order]
        ∧ order.total = 150 ∧ order.items = [a, b] ∧ order.status = "pending"
        ∧ (placeOrder s now stamp).cart = []) := by
  refine ⟨placeOrder_empty s now stamp, ?_, ?_⟩
  · intro hne
    rw [placeOrder_ok s now stamp hne]
    refine ⟨?_, rfl, rfl, rfl, rfl, rfl, rfl, ?_, ?_⟩
    · simp only [foldl_price_sum, zero_add]
    · unfold undoCart
      rw [if_pos (by simp)]
    · unfold redoCart
      rw [if_pos (by simp)]
  · intro a b hcart hsum
    have hne : s.cart ≠ [] := by rw [hcart]; simp
    rw [placeOrder_ok s now stamp hne]
    refine ⟨_, rfl, ?_, hcart, rfl, rfl⟩
    simp only [foldl_price_sum, hcart, List.map_cons, List.map_nil, List.sum_cons, List.sum_nil]
    omega

/-- C9 at the cart holding a Desk (100) and a Lamp (50). -/
theorem C9_placeOrder_contract_witness :
    Reachable twoPriceCatalog deskAndLamp
    ∧ deskAndLamp.cart
        = [lineItem { id := 1, name := "Desk", price := 100, stock := 3, category := "Furniture" } 1,
           lineItem { id := 2, name := "Lamp", price := 50, stock := 3, category := "Furniture" } 2]
    ∧ ∃ order, (placeOrder deskAndLamp 3 "day 1").orderQueue = deskAndLamp.orderQueue ++ [order]
        ∧ order.total = 150
        ∧ order.items
          = [lineItem { id := 1, name := "Desk", price := 100, stock := 3, category := "Furniture" } 1,
             lineItem { id := 2, name := "Lamp", price := 50, stock := 3, category := "Furniture" } 2]
        ∧ order.status = "pending"
        ∧ (placeOrder deskAndLamp 3 "day 1").cart = [] :=
  ⟨.next (.addToCart 2 2) (.next (.addToCart 1 1) .start rfl) rfl, rfl,
    (C9_placeOrder_contract deskAndLamp 3 "day 1").2.2
      (lineItem { id := 1, name := "Desk", price := 100, stock := 3, category := "Furniture" } 1)
      (lineItem { id := 2, name := "Lamp", price := 50, stock := 3, category := "Furniture" } 2)
      rfl (by decide)⟩

end Shop
